import Mathlib

set_option synthInstance.maxSize 1000

/-!
Shallow embedding of the `search_engine_cache` Rust library
(`src/lru/mod.rs`, `src/lfu_w/mod.rs`, `src/landlord/mod.rs`, `src/lib.rs`).

Modelling conventions:
* `HashMap<K, T>` is modelled as an association list `List (K × T)` with
  first-match lookup, replace-in-place insert and remove-first erase
  (the engines never iterate over the maps, so iteration order is irrelevant).
* `Vec<Node>` arenas are modelled as `List Node`; `self.nodes[i]` reads are
  `List.getD i default` and `self.nodes[i].f = x` writes are `List.set`
  (Rust would panic out of bounds; in the states our theorems touch every
  index is in bounds, enforced by explicit well-formedness hypotheses).
* `Vec` used as a stack (`free_list`) is modelled as a list with push = cons
  and pop = head, an equivalent LIFO stack.
* the external `priority_queue::PriorityQueue<K, Reverse<P>>` crate stores
  key/priority pairs in insertion order and guarantees that `pop` removes and
  returns an entry of extremal priority (here: minimal `P`, because of
  `Reverse`), that `push` inserts a new key or updates the priority of an
  existing one, and that `change_priority` updates the priority of a present
  key and does nothing for an absent key.  We model it as an
  insertion-ordered association list; `pop` removes the first entry holding
  the minimal priority, a fixed deterministic choice conforming to the
  crate's contract (ties between equal priorities are implementation-defined
  in the crate).
* Rust panics (`assert!`, `.unwrap()`) are modelled by `Option`: a function
  that can panic returns `none` on the panicking path.
-/

/-- Association-list lookup: first entry with the given key (models
`HashMap::get`). -/
def assocFind {K A : Type} [DecidableEq K] : List (K × A) → K → Option A
  | [], _ => none
  | (k', a) :: rest, k => if k' = k then some a else assocFind rest k

/-- Association-list insert: replace the value of the first entry with the
given key, or append a new entry (models `HashMap::insert`). -/
def assocInsert {K A : Type} [DecidableEq K] : List (K × A) → K → A → List (K × A)
  | [], k, a => [(k, a)]
  | (k', a') :: rest, k, a =>
    if k' = k then (k, a) :: rest else (k', a') :: assocInsert rest k a

/-- Association-list erase: drop the first entry with the given key (models
`HashMap::remove`). -/
def assocErase {K A : Type} [DecidableEq K] : List (K × A) → K → List (K × A)
  | [], _ => []
  | (k', a') :: rest, k => if k' = k then rest else (k', a') :: assocErase rest k

/-- Model of `PriorityQueue::change_priority`: update the priority of the
given key if present, otherwise do nothing. -/
def pqChange {K : Type} [DecidableEq K] (q : List (K × Nat)) (k : K) (p : Nat) :
    List (K × Nat) :=
  q.map (fun e => if e.1 = k then (k, p) else e)

/-- Model of `PriorityQueue::push`: update the priority if the key is already
present, otherwise append the new entry. -/
def pqPush {K : Type} [DecidableEq K] (q : List (K × Nat)) (k : K) (p : Nat) :
    List (K × Nat) :=
  if (assocFind q k).isSome then pqChange q k p else q ++ [(k, p)]

/-- Model of `PriorityQueue::remove`: drop the entry with the given key. -/
def pqRemove {K : Type} [DecidableEq K] (q : List (K × Nat)) (k : K) :
    List (K × Nat) :=
  assocErase q k

/-- Model of `PriorityQueue::<K, Reverse<usize>>::pop`: remove and return an
entry with minimal priority (the crate's greatest item under `Reverse`); among
equal minimal priorities the first in insertion order is taken. -/
def pqPopMin {K : Type} : List (K × Nat) → Option ((K × Nat) × List (K × Nat))
  | [] => none
  | e :: rest =>
    match pqPopMin rest with
    | none => some (e, [])
    | some (m, rest') =>
      if e.2 ≤ m.2 then some (e, rest) else some (m, e :: rest')

/-! ## Weighted LFU engine (`src/lfu_w/mod.rs`) -/

/-- Arena node of the weighted LFU cache (`struct Node<K, V>`). -/
structure LFUNode (K V : Type) where
  key : K
  value : V
  freq : Nat
  weight : Nat
  prev : Option Nat
  next : Option Nat
deriving Repr, DecidableEq

instance {K V : Type} [Inhabited K] [Inhabited V] : Inhabited (LFUNode K V) :=
  ⟨⟨default, default, 0, 0, none, none⟩⟩

/-- Intrusive bucket list head/tail/size (`struct PriorityList`). -/
structure PriorityList where
  head : Option Nat
  tail : Option Nat
  size : Nat
deriving Repr, DecidableEq

/-- `PriorityList::new`. -/
def PriorityList.new : PriorityList := ⟨none, none, 0⟩

/-- State of `struct LFUCache<K, V>`. -/
structure LFUCache (K V : Type) where
  capacity : Nat
  weighted : Bool
  nodes : List (LFUNode K V)
  minPriorityQueue : List (K × Nat)
  keyToIdx : List (K × Nat)
  priorityToList : List (Nat × PriorityList)
  freeList : List Nat
deriving Repr, DecidableEq

variable {K V : Type}

/-- `LFUCache::new` (the `assert!(capacity > 0)` is a construction-time panic;
theorems about constructed caches take `0 < capacity` where it matters). -/
def LFUCache.new (capacity : Nat) (weighted : Bool) : LFUCache K V :=
  ⟨capacity, weighted, [], [], [], [], []⟩

/-- Read `self.nodes[idx]` (Rust panics out of bounds; we read a default). -/
def LFUCache.node [Inhabited K] [Inhabited V] (s : LFUCache K V) (idx : Nat) :
    LFUNode K V :=
  s.nodes.getD idx default

/-- Field update `self.nodes[idx] ← f (self.nodes[idx])` (out of bounds this
is a no-op where Rust would panic). -/
def LFUCache.setNode [Inhabited K] [Inhabited V] (s : LFUCache K V) (idx : Nat)
    (f : LFUNode K V → LFUNode K V) : LFUCache K V :=
  { s with nodes := s.nodes.set idx (f (s.node idx)) }

/-- `LFUCache::add_to_priority_list`. -/
def LFUCache.addToPriorityList [DecidableEq K] [Inhabited K] [Inhabited V]
    (s : LFUCache K V) (idx : Nat) (priority : Nat) : LFUCache K V :=
  -- let list = self.priority_to_list.entry(priority).or_insert_with(PriorityList::new);
  let list := (assocFind s.priorityToList priority).getD PriorityList.new
  -- self.nodes[idx].next = list.head; self.nodes[idx].prev = None;
  let s1 := s.setNode idx (fun n => { n with next := list.head, prev := none })
  -- if let Some(old_head) = list.head { self.nodes[old_head].prev = Some(idx); }
  let s2 := match list.head with
    | some oldHead => s1.setNode oldHead (fun n => { n with prev := some idx })
    | none => s1
  -- list.head = Some(idx); if list.tail.is_none() { list.tail = Some(idx) } ; list.size += 1;
  let list' : PriorityList :=
    { head := some idx
      tail := if list.tail.isNone then some idx else list.tail
      size := list.size + 1 }
  { s2 with priorityToList := assocInsert s2.priorityToList priority list' }

/-- `LFUCache::remove_from_priority_list`. -/
def LFUCache.removeFromPriorityList [DecidableEq K] [Inhabited K] [Inhabited V]
    (s : LFUCache K V) (idx : Nat) (priority : Nat) : LFUCache K V :=
  let node := s.node idx
  let prev := node.prev
  let next := node.next
  -- if let Some(list) = self.priority_to_list.get_mut(&priority) { ... }
  match assocFind s.priorityToList priority with
  | none => s
  | some list =>
    let s1 := match prev with
      | some p => s.setNode p (fun n => { n with next := next })
      | none => s
    let s2 := match next with
      | some n => s1.setNode n (fun nd => { nd with prev := prev })
      | none => s1
    let list' : PriorityList :=
      { head := if prev.isNone then next else list.head
        tail := if next.isNone then prev else list.tail
        size := list.size - 1 }
    { s2 with priorityToList := assocInsert s2.priorityToList priority list' }

/-- `LFUCache::increment_priority`. -/
def LFUCache.incrementPriority [DecidableEq K] [Inhabited K] [Inhabited V]
    (s : LFUCache K V) (idx : Nat) : LFUCache K V :=
  let weight := (s.node idx).weight
  let oldFreq := (s.node idx).freq
  let newFreq := oldFreq + 1
  let s1 := s.removeFromPriorityList idx (oldFreq * weight)
  let s2 := s1.setNode idx (fun n => { n with freq := newFreq })
  let s3 := s2.addToPriorityList idx (newFreq * weight)
  { s3 with
    minPriorityQueue :=
      pqChange s3.minPriorityQueue (s3.node idx).key (newFreq * weight) }

/-- `LFUCache::allocate_node`; returns the updated state and the slot index. -/
def LFUCache.allocateNode [Inhabited K] [Inhabited V] (s : LFUCache K V)
    (key : K) (value : V) (freq : Nat) (weight : Option Nat) :
    LFUCache K V × Nat :=
  let nd : LFUNode K V :=
    ⟨key, value, freq, weight.getD 1, none, none⟩
  match s.freeList with
  | freeIdx :: rest =>
    ({ s with nodes := s.nodes.set freeIdx nd, freeList := rest }, freeIdx)
  | [] =>
    ({ s with nodes := s.nodes ++ [nd] }, s.nodes.length)

/-- `LFUCache::evict_lfu`; `none` models the `.unwrap()` panic on an empty
min-priority queue. -/
def LFUCache.evictLfu [DecidableEq K] [Inhabited K] [Inhabited V]
    (s : LFUCache K V) : Option (LFUCache K V) :=
  match pqPopMin s.minPriorityQueue with
  | none => none
  | some (minEntry, restQueue) =>
    let s0 := { s with minPriorityQueue := restQueue }
    match assocFind s0.priorityToList minEntry.2 with
    | none => some s0
    | some list =>
      match list.tail with
      | none => some s0
      | some tailIdx =>
        let key := (s0.node tailIdx).key
        let s1 := { s0 with keyToIdx := assocErase s0.keyToIdx key }
        let s2 := s1.removeFromPriorityList tailIdx minEntry.2
        some { s2 with freeList := tailIdx :: s2.freeList }

/-- Tail of `LFUCache::put` for a new key, after the eviction step: allocate
the node with `freq = 1`, register the key, enter the priority bucket and
push onto the min-priority queue (lines 95-102 of `lfu_w/mod.rs`). -/
def LFUCache.putNewCore [DecidableEq K] [Inhabited K] [Inhabited V]
    (s1 : LFUCache K V) (key : K) (value : V) (weight : Option Nat) :
    LFUCache K V :=
  let (s2, idx) := s1.allocateNode key value 1 weight
  let s3 := { s2 with keyToIdx := assocInsert s2.keyToIdx key idx }
  let s4 := s3.addToPriorityList idx (1 * weight.getD 1)
  { s4 with
    minPriorityQueue := pqPush s4.minPriorityQueue key (1 * weight.getD 1) }

/-- `LFUCache::put`; `none` models the panics (`assert_eq!(true,
weight.is_some())` in weighted mode, and the eviction `.unwrap()`). -/
def LFUCache.put [DecidableEq K] [Inhabited K] [Inhabited V] (s : LFUCache K V)
    (key : K) (value : V) (weight : Option Nat) : Option (LFUCache K V) :=
  if s.weighted ∧ weight.isNone then none
  else
    match assocFind s.keyToIdx key with
    | some idx =>
      -- update existing key
      let s1 := s.setNode idx (fun n => { n with value := value })
      some (s1.incrementPriority idx)
    | none =>
      -- need to evict if at capacity
      let evicted : Option (LFUCache K V) :=
        if s.keyToIdx.length ≥ s.capacity then s.evictLfu else some s
      match evicted with
      | none => none
      | some s1 => some (s1.putNewCore key value weight)

/-- `LFUCache::get`: mutated state plus returned value. -/
def LFUCache.get [DecidableEq K] [Inhabited K] [Inhabited V] (s : LFUCache K V)
    (key : K) : LFUCache K V × Option V :=
  match assocFind s.keyToIdx key with
  | none => (s, none)
  | some idx =>
    let s1 := s.incrementPriority idx
    (s1, some (s1.node idx).value)

/-- `LFUCache::len`. -/
def LFUCache.len (s : LFUCache K V) : Nat := s.keyToIdx.length

/-- `LFUCache::is_empty`. -/
def LFUCache.isEmpty [DecidableEq K] (s : LFUCache K V) : Bool :=
  s.keyToIdx.isEmpty

/-- `LFUCache::get_freq`. -/
def LFUCache.getFreq [DecidableEq K] [Inhabited K] [Inhabited V]
    (s : LFUCache K V) (key : K) : Option Nat :=
  (assocFind s.keyToIdx key).map (fun idx => (s.node idx).freq)

/-- Operations a client can perform on the LFU cache. -/
inductive LFUOp (K V : Type) where
  | put (key : K) (value : V) (weight : Option Nat)
  | get (key : K)
deriving Repr, DecidableEq

/-- One client operation on the LFU cache (`none` = a panic occurred). -/
def lfuStep [DecidableEq K] [Inhabited K] [Inhabited V] (s : LFUCache K V) :
    LFUOp K V → Option (LFUCache K V)
  | .put k v w => s.put k v w
  | .get k => some (s.get k).1

/-- Run a sequence of operations from `LFUCache::new capacity weighted`. -/
def lfuRun [DecidableEq K] [Inhabited K] [Inhabited V] (capacity : Nat)
    (weighted : Bool) (ops : List (LFUOp K V)) : Option (LFUCache K V) :=
  ops.foldlM lfuStep (LFUCache.new capacity weighted)

/-! ## Concrete LFU runs deciding claims C1, C2, C3

With capacity 2 and no weights (all priorities equal the frequency), the run
`put 1; put 2; get 2; get 1` leaves keys 1 and 2 tied at priority 2, with
key 2 the least recently touched in the priority-2 bucket.  The next `put 3`
calls `evict_lfu`, which pops key 1 from the min-priority queue but removes
the bucket tail, key 2, from the key index: the two structures fall out of
sync (key 2 stays in the queue as a ghost, resident key 1 disappears from the
queue).  Continuing with `get 1; get 3; get 3` empties the priority-2 bucket
while the ghost entry (key 2, priority 2) still sits in the queue; the final
`put 4` then pops the ghost, finds its bucket empty, evicts nothing, and
inserts a third key: `len` ends at 3 with capacity 2. -/

/-- Operations whose 5th step desynchronizes the LFU queue from the index. -/
def lfuDesyncOps : List (LFUOp Nat Nat) :=
  [.put 1 1 none, .put 2 2 none, .get 2, .get 1, .put 3 3 none]

/-- Operations after which the LFU cache holds 3 entries with capacity 2. -/
def lfuOverflowOps : List (LFUOp Nat Nat) :=
  lfuDesyncOps ++ [.get 1, .get 3, .get 3, .put 4 4 none]

/-- C1: refuted at a concrete input.  After `lfuDesyncOps` (capacity 2,
unweighted), the eviction performed by the last `put` removed key 2 from the
key index but removed key 1 from the min-priority queue: key 2 is absent from
the index yet still queued with priority 2, while key 1 is resident (slot 0)
but no longer queued.  The queue therefore does not contain exactly the keys
of the key index, and the eviction did not remove the evicted key from both
structures. -/
theorem lfu_C1_eviction_desyncs_queue_and_index :
    (lfuRun 2 false lfuDesyncOps).map (fun s =>
      (assocFind s.keyToIdx 2, assocFind s.minPriorityQueue 2,
       assocFind s.keyToIdx 1, assocFind s.minPriorityQueue 1)) =
    some (none, some 2, some 0, none) := by
  decide

/-- C3: refuted at a concrete input.  Running `lfuOverflowOps` from
`LFUCache::new 2 false` makes the 9th `put` insert without evicting anything
(the popped stale queue entry points at an empty bucket), so `len` reaches
3 > capacity = 2. -/
theorem lfu_C3_len_exceeds_capacity :
    (lfuRun 2 false lfuOverflowOps).map (fun s => (s.len, s.capacity)) =
    some (3, 2) := by
  decide

/-- Observation of an LFU state used by the C2 theorem: length, capacity,
each arena slot's key and priority, and the tails of buckets 3, 1 and 2. -/
def lfuBucketObs (s : LFUCache Nat Nat) :
    (Nat × Nat × List (Nat × Nat)) ×
      (Option (Option Nat) × Option (Option Nat) × Option (Option Nat)) :=
  ((s.len, s.capacity,
    s.nodes.map (fun n => (n.key, n.freq * n.weight))),
   ((assocFind s.priorityToList 3).map PriorityList.tail,
    (assocFind s.priorityToList 1).map PriorityList.tail,
    (assocFind s.priorityToList 2).map PriorityList.tail))

/-- C2: the general eviction statement is refuted at a concrete input, while
the claim's own capacity-2 weighted example does hold.  Before the last `put`
of `lfuOverflowOps` the cache is at capacity (`len = 2 = capacity`); both
resident entries (keys 1 and 3) have priority `freq × weight = 3`, the
priority-3 bucket is the only non-empty bucket and its tail is slot 0 holding
key 1 — so the claim requires that `put 4` remove key 1.  Instead the `put`
removes no entry at all: both keys 1 and 3 are still resident afterwards and
`len` grows to 3.  The final conjunct checks the claim's concrete example:
`put(1,w=2); put(2,w=2); put(3,w=1)` does evict key 1 (equal priorities, key 1
least recently touched). -/
theorem lfu_C2_at_capacity_put_evicts_no_entry :
    (lfuRun 2 false (lfuDesyncOps ++ [.get 1, .get 3, .get 3])).map lfuBucketObs =
      some ((2, 2, [(1, 3), (3, 3)]), (some (some 0), some none, some none)) ∧
    (lfuRun 2 false lfuOverflowOps).map (fun s =>
      ((assocFind s.keyToIdx 1).isSome, (assocFind s.keyToIdx 3).isSome,
       s.len)) = some (true, true, 3) ∧
    (lfuRun 2 true [.put 1 1 (some 2), .put 2 2 (some 2), .put 3 3 (some 1)]).map
      (fun s =>
        (assocFind s.keyToIdx 1, (assocFind s.keyToIdx 2).isSome,
         (assocFind s.keyToIdx 3).isSome)) = some (none, true, true) := by
  refine ⟨by decide, by decide, by decide⟩

/-! ## LRU engine (`src/lru/mod.rs`) -/

/-- Arena node of the LRU cache (`struct Node<K, V>` in `lru/mod.rs`). -/
structure LRUNode (K V : Type) where
  key : K
  value : V
  prev : Option Nat
  next : Option Nat
deriving Repr, DecidableEq

instance {K V : Type} [Inhabited K] [Inhabited V] : Inhabited (LRUNode K V) :=
  ⟨⟨default, default, none, none⟩⟩

/-- State of `struct LRUCache<K, V>`. -/
structure LRUCache (K V : Type) where
  capacity : Nat
  map : List (K × Nat)
  nodes : List (LRUNode K V)
  head : Option Nat
  tail : Option Nat
  freeList : List Nat
deriving Repr, DecidableEq

variable {K V : Type}

/-- `LRUCache::new` (`assert!(capacity > 0)` is a construction-time panic;
theorems take `0 < capacity` where it matters). -/
def LRUCache.new (capacity : Nat) : LRUCache K V :=
  ⟨capacity, [], [], none, none, []⟩

/-- Read `self.nodes[idx]`. -/
def LRUCache.node [Inhabited K] [Inhabited V] (s : LRUCache K V) (idx : Nat) :
    LRUNode K V :=
  s.nodes.getD idx default

/-- Field update of `self.nodes[idx]`. -/
def LRUCache.setNode [Inhabited K] [Inhabited V] (s : LRUCache K V) (idx : Nat)
    (f : LRUNode K V → LRUNode K V) : LRUCache K V :=
  { s with nodes := s.nodes.set idx (f (s.node idx)) }

/-- `LRUCache::detach`. -/
def LRUCache.detach [Inhabited K] [Inhabited V] (s : LRUCache K V) (idx : Nat) :
    LRUCache K V :=
  let node := s.node idx
  let prev := node.prev
  let next := node.next
  -- match prev { Some(p) => self.nodes[p].next = next, None => self.head = next }
  let s1 := match prev with
    | some p => s.setNode p (fun n => { n with next := next })
    | none => { s with head := next }
  -- match next { Some(n) => self.nodes[n].prev = prev, None => self.tail = prev }
  match next with
  | some n => s1.setNode n (fun nd => { nd with prev := prev })
  | none => { s1 with tail := prev }

/-- `LRUCache::add_to_front`. -/
def LRUCache.addToFront [Inhabited K] [Inhabited V] (s : LRUCache K V)
    (idx : Nat) : LRUCache K V :=
  -- self.nodes[idx].prev = None; self.nodes[idx].next = self.head;
  let s1 := s.setNode idx (fun n => { n with prev := none, next := s.head })
  -- if let Some(old_head) = self.head { self.nodes[old_head].prev = Some(idx); }
  let s2 := match s.head with
    | some oldHead => s1.setNode oldHead (fun n => { n with prev := some idx })
    | none => s1
  -- self.head = Some(idx); if self.tail.is_none() { self.tail = Some(idx); }
  let s3 := { s2 with head := some idx }
  if s3.tail.isNone then { s3 with tail := some idx } else s3

/-- `LRUCache::move_to_front`. -/
def LRUCache.moveToFront [Inhabited K] [Inhabited V] (s : LRUCache K V)
    (idx : Nat) : LRUCache K V :=
  if s.head = some idx then s
  else (s.detach idx).addToFront idx

/-- `LRUCache::remove_tail`. -/
def LRUCache.removeTail [DecidableEq K] [Inhabited K] [Inhabited V]
    (s : LRUCache K V) : LRUCache K V :=
  match s.tail with
  | none => s
  | some tailIdx =>
    let key := (s.node tailIdx).key
    let s1 := { s with map := assocErase s.map key }
    let s2 := s1.detach tailIdx
    { s2 with freeList := tailIdx :: s2.freeList }

/-- `LRUCache::put` (the `_weight: u32` parameter is accepted and unused,
exactly as in the source). -/
def LRUCache.put [DecidableEq K] [Inhabited K] [Inhabited V] (s : LRUCache K V)
    (key : K) (value : V) (_weight : Nat) : LRUCache K V :=
  match assocFind s.map key with
  | some idx =>
    let s1 := s.setNode idx (fun n => { n with value := value })
    s1.moveToFront idx
  | none =>
    -- need to evict if at capacity
    let s1 := if s.map.length ≥ s.capacity then s.removeTail else s
    -- get index for new node (free list or push)
    let nd : LRUNode K V := ⟨key, value, none, none⟩
    let (s2, idx) : LRUCache K V × Nat :=
      match s1.freeList with
      | freeIdx :: rest =>
        ({ s1 with nodes := s1.nodes.set freeIdx nd, freeList := rest },
         freeIdx)
      | [] =>
        ({ s1 with nodes := s1.nodes ++ [nd] }, s1.nodes.length)
    let s3 := { s2 with map := assocInsert s2.map key idx }
    s3.addToFront idx

/-- `LRUCache::get`: mutated state plus returned value. -/
def LRUCache.get [DecidableEq K] [Inhabited K] [Inhabited V] (s : LRUCache K V)
    (key : K) : LRUCache K V × Option V :=
  match assocFind s.map key with
  | none => (s, none)
  | some idx =>
    let s1 := s.moveToFront idx
    (s1, some (s1.node idx).value)

/-- `LRUCache::len`. -/
def LRUCache.len (s : LRUCache K V) : Nat := s.map.length

/-- `LRUCache::is_empty`. -/
def LRUCache.isEmpty (s : LRUCache K V) : Bool := s.map.isEmpty

/-- Operations a client can perform on the LRU cache (`put` carries the
ignored weight argument of the shared `Cache` contract). -/
inductive LRUOp (K V : Type) where
  | put (key : K) (value : V) (weight : Nat)
  | get (key : K)
deriving Repr, DecidableEq

/-- One client operation on the LRU cache. -/
def lruStep [DecidableEq K] [Inhabited K] [Inhabited V] (s : LRUCache K V) :
    LRUOp K V → LRUCache K V
  | .put k v w => s.put k v w
  | .get k => (s.get k).1

/-- Run a sequence of operations from `LRUCache::new capacity`. -/
def lruRun [DecidableEq K] [Inhabited K] [Inhabited V] (capacity : Nat)
    (ops : List (LRUOp K V)) : LRUCache K V :=
  ops.foldl lruStep (LRUCache.new capacity)

/-- Base run for claim C5: `put 1; put 2; put 3` with capacity 2. -/
def lruC5Run : LRUCache Nat Nat :=
  lruRun 2 [LRUOp.put 1 10 1, LRUOp.put 2 20 2, LRUOp.put 3 30 3]

/-- Promoted run for claim C5: `put 1; put 2; get 1; put 3` with capacity 2. -/
def lruC5PromotedRun : LRUCache Nat Nat :=
  lruRun 2 [LRUOp.put 1 10 1, LRUOp.put 2 20 2, LRUOp.get 1, LRUOp.put 3 30 3]

/-- C5: confirmed.  With capacity 2, `put 1; put 2; put 3` evicts key 1; any
further insertion of a fresh key (any `k ∉ {2, 3}`) then evicts key 2; and a
`get 1` between the insertions promotes key 1 so that `put 3` evicts key 2
instead — the least-recently-used tail entry is the one evicted each time. -/
theorem lru_C5_eviction_order (k v w : Nat) (hk2 : k ≠ 2) (hk3 : k ≠ 3) :
    (assocFind lruC5Run.map 1 = none ∧
      Option.isSome (assocFind lruC5Run.map 2) = true ∧
      Option.isSome (assocFind lruC5Run.map 3) = true) ∧
    (assocFind (lruC5Run.put k v w).map 2 = none ∧
      Option.isSome (assocFind (lruC5Run.put k v w).map 3) = true ∧
      Option.isSome (assocFind (lruC5Run.put k v w).map k) = true) ∧
    (assocFind lruC5PromotedRun.map 2 = none ∧
      Option.isSome (assocFind lruC5PromotedRun.map 1) = true ∧
      Option.isSome (assocFind lruC5PromotedRun.map 3) = true) := by
  refine ⟨by decide, ?_, by decide⟩
  have h2 : ¬ ((2 : Nat) = k) := fun h => hk2 h.symm
  have h3 : ¬ ((3 : Nat) = k) := fun h => hk3 h.symm
  simp [lruC5Run, lruRun, lruStep, LRUCache.new, LRUCache.put,
    LRUCache.removeTail, LRUCache.detach, LRUCache.addToFront,
    LRUCache.moveToFront, LRUCache.setNode, LRUCache.node, assocFind,
    assocErase, assocInsert, h2, h3, hk2, hk3]

/-- C5 witness: the quantified part instantiated at the fresh key 4. -/
theorem lru_C5_eviction_order_witness :
    (4 : Nat) ≠ 2 ∧ (4 : Nat) ≠ 3 ∧
      assocFind (lruC5Run.put 4 40 4).map 2 = none :=
  ⟨by decide, by decide,
   (lru_C5_eviction_order 4 40 4 (by decide) (by decide)).2.1.1⟩

/-- Erase the weight argument of an LRU operation (weights are the only part
of an operation the LRU engine is claimed to ignore). -/
def lruEraseWeight : LRUOp K V → LRUOp K V
  | .put k v _ => .put k v 0
  | .get k => .get k

/-- Two LRU operations that agree except possibly on weights drive the engine
to the same state. -/
theorem lruStep_weight_free [DecidableEq K] [Inhabited K] [Inhabited V]
    (s : LRUCache K V) (op1 op2 : LRUOp K V)
    (h : lruEraseWeight op1 = lruEraseWeight op2) :
    lruStep s op1 = lruStep s op2 := by
  cases op1 with
  | put k1 v1 w1 =>
    cases op2 with
    | put k2 v2 w2 =>
      simp only [lruEraseWeight, LRUOp.put.injEq, and_true] at h
      obtain ⟨hk, hv⟩ := h
      subst hk; subst hv
      rfl
    | get k2 => simp [lruEraseWeight] at h
  | get k1 =>
    cases op2 with
    | put k2 v2 w2 => simp [lruEraseWeight] at h
    | get k2 =>
      simp only [lruEraseWeight, LRUOp.get.injEq] at h
      subst h
      rfl

/-- Runs of weight-equivalent operation lists from any common state agree. -/
theorem lruFold_weight_free [DecidableEq K] [Inhabited K] [Inhabited V]
    (ops1 ops2 : List (LRUOp K V))
    (h : ops1.map lruEraseWeight = ops2.map lruEraseWeight) :
    ∀ s : LRUCache K V, ops1.foldl lruStep s = ops2.foldl lruStep s := by
  induction ops1 generalizing ops2 with
  | nil =>
    cases ops2 with
    | nil => intro s; rfl
    | cons b l => simp at h
  | cons a l ih =>
    cases ops2 with
    | nil => simp at h
    | cons b m =>
      intro s
      simp only [List.map_cons, List.cons.injEq] at h
      simp only [List.foldl_cons, lruStep_weight_free s a b h.1, ih m h.2]

/-- C9: confirmed.  The LRU engine's observable behaviour is independent of
the weights passed to `put`: if two operation sequences agree except on the
weight arguments, then after running both from `LRUCache::new capacity`,
every `get` returns the same value, `len` agrees and `is_empty` agrees. -/
theorem lru_C9_weight_independent [DecidableEq K] [Inhabited K] [Inhabited V]
    (capacity : Nat) (ops1 ops2 : List (LRUOp K V))
    (h : ops1.map lruEraseWeight = ops2.map lruEraseWeight) :
    (∀ k : K,
        ((lruRun capacity ops1).get k).2 = ((lruRun capacity ops2).get k).2) ∧
      (lruRun capacity ops1).len = (lruRun capacity ops2).len ∧
      (lruRun capacity ops1).isEmpty = (lruRun capacity ops2).isEmpty := by
  have hrun : lruRun capacity ops1 = lruRun capacity ops2 :=
    lruFold_weight_free ops1 ops2 h (LRUCache.new capacity)
  rw [hrun]
  exact ⟨fun _ => rfl, rfl, rfl⟩

/-- C9 witness: two concrete runs differing only in weights observed equal. -/
theorem lru_C9_weight_independent_witness :
    ([LRUOp.put 1 10 7, LRUOp.put 2 20 9].map lruEraseWeight =
        [LRUOp.put 1 10 0, LRUOp.put 2 20 5].map lruEraseWeight) ∧
      ((lruRun 2 [LRUOp.put 1 10 7, LRUOp.put 2 20 9] : LRUCache Nat Nat).get 1).2 =
        ((lruRun 2 [LRUOp.put 1 10 0, LRUOp.put 2 20 5]).get 1).2 :=
  ⟨by decide,
   (lru_C9_weight_independent 2 [LRUOp.put 1 10 7, LRUOp.put 2 20 9]
      [LRUOp.put 1 10 0, LRUOp.put 2 20 5] (by decide)).1 1⟩

/-! ## Landlord engine (`src/landlord/mod.rs`) -/

/-- `struct LandlordNode<V>`. -/
structure LandlordNode (V : Type) where
  value : V
  weight : Nat
deriving Repr, DecidableEq

/-- State of `struct Landlord<K, V>` (`l` is the rising threshold `L`). -/
structure Landlord (K V : Type) where
  capacity : Nat
  l : Nat
  pq : List (K × Nat)
  cache : List (K × LandlordNode V)
deriving Repr, DecidableEq

/-- `Landlord::new` (`assert!(capacity > 0)` is a construction-time panic;
theorems take `0 < capacity` where it matters). -/
def Landlord.new (capacity : Nat) : Landlord K V :=
  ⟨capacity, 0, [], []⟩

/-- `Landlord::remove`. -/
def Landlord.remove [DecidableEq K] (s : Landlord K V) (key : K) :
    Landlord K V :=
  { s with cache := assocErase s.cache key, pq := pqRemove s.pq key }

/-- `Landlord::evict`: pop the minimum-priority entry, raise `l` to its
priority and drop it from the value map; a no-op when the queue is empty. -/
def Landlord.evict [DecidableEq K] (s : Landlord K V) : Landlord K V :=
  match pqPopMin s.pq with
  | none => s
  | some (evictedKey, rest) =>
    { s with
      pq := rest
      l := evictedKey.2
      cache := assocErase s.cache evictedKey.1 }

/-- `Landlord::put`. -/
def Landlord.put [DecidableEq K] (s : Landlord K V) (key : K) (value : V)
    (weight : Nat) : Landlord K V :=
  let s1 := if (assocFind s.cache key).isSome then s.remove key else s
  let s2 := if s1.cache.length ≥ s1.capacity then s1.evict else s1
  { s2 with
    cache := assocInsert s2.cache key ⟨value, weight⟩
    pq := pqPush s2.pq key (s2.l + weight) }

/-- `Landlord::get`: mutated state plus returned value. -/
def Landlord.get [DecidableEq K] (s : Landlord K V) (key : K) :
    Landlord K V × Option V :=
  match assocFind s.cache key with
  | none => (s, none)
  | some node =>
    ({ s with pq := pqChange s.pq key (s.l + node.weight) }, some node.value)

/-- Modelled from the spec: `Landlord::len` belongs to the shared cache
contract (spec §6 Introspection) and is called by `CacheType::len` in
`src/lib.rs`, but its body is missing from `src/landlord/mod.rs`; per the
spec it returns the number of resident entries. -/
def Landlord.len (s : Landlord K V) : Nat := s.cache.length

/-- Modelled from the spec: `Landlord::is_empty`, as for `Landlord.len`. -/
def Landlord.isEmpty (s : Landlord K V) : Bool := s.cache.isEmpty

/-- Operations a client can perform on the Landlord cache (`evict` is public
in the source). -/
inductive LandlordOp (K V : Type) where
  | put (key : K) (value : V) (weight : Nat)
  | get (key : K)
  | evict
deriving Repr, DecidableEq

/-- One client operation on the Landlord cache. -/
def landlordStep [DecidableEq K] (s : Landlord K V) :
    LandlordOp K V → Landlord K V
  | .put k v w => s.put k v w
  | .get k => (s.get k).1
  | .evict => s.evict

/-- Run a sequence of operations from `Landlord::new capacity`. -/
def landlordRun [DecidableEq K] (capacity : Nat) (ops : List (LandlordOp K V)) :
    Landlord K V :=
  ops.foldl landlordStep (Landlord.new capacity)

/-- Whether one step of the Landlord cache actually evicts an entry (used to
state "nothing has ever been evicted"). -/
def landlordStepEvicts [DecidableEq K] (s : Landlord K V) :
    LandlordOp K V → Bool
  | .put k _ _ =>
    let s1 := if (assocFind s.cache k).isSome then s.remove k else s
    decide (s1.cache.length ≥ s1.capacity) && (pqPopMin s1.pq).isSome
  | .get _ => false
  | .evict => (pqPopMin s.pq).isSome

/-! ### Association-list and queue lemmas -/

/-- Looking a key up after an insert: the inserted key maps to the new value,
other keys are unaffected. -/
theorem assocFind_assocInsert {K A : Type} [DecidableEq K] (l : List (K × A))
    (k : K) (a : A) (q : K) :
    assocFind (assocInsert l k a) q = if k = q then some a else assocFind l q := by
  induction l with
  | nil => simp [assocInsert, assocFind]
  | cons e rest ih =>
    obtain ⟨k', a'⟩ := e
    by_cases hk : k' = k
    · subst hk
      simp only [assocInsert, if_pos rfl, assocFind]
      by_cases hq : k' = q
      · subst hq; simp
      · simp [hq, assocFind]
    · simp only [assocInsert, if_neg hk, assocFind]
      by_cases hq : k' = q
      · subst hq
        have : ¬ (k = k') := fun h => hk h.symm
        simp [this]
      · simp [hq, ih]

/-- Looking up a different key is unaffected by an erase. -/
theorem assocFind_assocErase {K A : Type} [DecidableEq K] (l : List (K × A))
    (k : K) (q : K) (hne : k ≠ q) :
    assocFind (assocErase l k) q = assocFind l q := by
  induction l with
  | nil => simp [assocErase]
  | cons e rest ih =>
    obtain ⟨k', a'⟩ := e
    by_cases hk : k' = k
    · subst hk
      have : ¬ (k' = q) := fun h => hne (h ▸ rfl)
      simp [assocErase, assocFind, this]
    · simp [assocErase, hk, assocFind, ih]

/-- Erasing only ever drops entries. -/
theorem mem_of_mem_assocErase {K A : Type} [DecidableEq K]
    {l : List (K × A)} {k : K} {e : K × A} (h : e ∈ assocErase l k) :
    e ∈ l := by
  induction l with
  | nil => simp [assocErase] at h
  | cons hd rest ih =>
    obtain ⟨k', a'⟩ := hd
    by_cases hk : k' = k
    · subst hk
      simp only [assocErase, if_pos rfl] at h
      exact List.mem_cons_of_mem _ h
    · simp only [assocErase, if_neg hk] at h
      rcases List.mem_cons.mp h with h | h
      · exact h ▸ List.mem_cons_self _ _
      · exact List.mem_cons_of_mem _ (ih h)

/-- A missing key means no entry carries it. -/
theorem assocFind_eq_none_iff {K A : Type} [DecidableEq K]
    (l : List (K × A)) (k : K) :
    assocFind l k = none ↔ k ∉ l.map Prod.fst := by
  induction l with
  | nil => simp [assocFind]
  | cons e rest ih =>
    obtain ⟨k', a'⟩ := e
    by_cases hk : k' = k
    · subst hk; simp [assocFind]
    · have : ¬ (k = k') := fun h => hk h.symm
      simp [assocFind, hk, ih, this]

/-- `pqChange` neither adds nor removes keys. -/
theorem pqChange_map_fst {K : Type} [DecidableEq K] (q : List (K × Nat))
    (k : K) (p : Nat) :
    (pqChange q k p).map Prod.fst = q.map Prod.fst := by
  unfold pqChange
  rw [List.map_map]
  apply List.map_congr_left
  intro a _
  by_cases hk : a.1 = k
  · simp [hk]
  · simp [hk]

/-- Members of a changed queue are old members or carry the changed key. -/
theorem mem_pqChange {K : Type} [DecidableEq K] {q : List (K × Nat)}
    {k : K} {p : Nat} {e : K × Nat} (h : e ∈ pqChange q k p) :
    e ∈ q ∨ e = (k, p) := by
  rcases List.mem_map.mp h with ⟨a, ha, hfa⟩
  by_cases hk : a.1 = k
  · right; rw [← hfa]; simp [hk]
  · left; rw [← hfa]; simpa [hk] using ha

/-- `pqPopMin` is `none` exactly on the empty queue. -/
theorem pqPopMin_eq_none {K : Type} (q : List (K × Nat)) :
    pqPopMin q = none ↔ q = [] := by
  cases q with
  | nil => simp [pqPopMin]
  | cons e tl =>
    simp only [pqPopMin]
    cases htl : pqPopMin tl with
    | none => simp
    | some p =>
      obtain ⟨m, rest⟩ := p
      by_cases hle : e.2 ≤ m.2 <;> simp [hle]

/-- `pqPopMin` returns a permutation split of the queue. -/
theorem pqPopMin_perm {K : Type} {q : List (K × Nat)} {m : K × Nat}
    {rest : List (K × Nat)} (h : pqPopMin q = some (m, rest)) :
    q.Perm (m :: rest) := by
  induction q generalizing m rest with
  | nil => simp [pqPopMin] at h
  | cons e tl ih =>
    cases htl : pqPopMin tl with
    | none =>
      have htl' : tl = [] := (pqPopMin_eq_none tl).mp htl
      subst htl'
      simp only [pqPopMin, Option.some.injEq, Prod.mk.injEq] at h
      obtain ⟨hm, hrest⟩ := h
      subst hm; subst hrest
      exact List.Perm.refl _
    | some p =>
      obtain ⟨m', rest'⟩ := p
      simp only [pqPopMin, htl] at h
      by_cases hle : e.2 ≤ m'.2
      · rw [if_pos hle] at h
        simp only [Option.some.injEq, Prod.mk.injEq] at h
        obtain ⟨hm, hrest⟩ := h
        subst hm; subst hrest
        exact List.Perm.refl _
      · rw [if_neg hle] at h
        simp only [Option.some.injEq, Prod.mk.injEq] at h
        obtain ⟨hm, hrest⟩ := h
        subst hm; subst hrest
        refine List.Perm.trans (List.Perm.cons e (ih htl)) ?_
        exact List.Perm.swap m' e rest'

/-- The entry returned by `pqPopMin` has minimal priority. -/
theorem pqPopMin_le {K : Type} {q : List (K × Nat)} {m : K × Nat}
    {rest : List (K × Nat)} (h : pqPopMin q = some (m, rest)) :
    ∀ x ∈ rest, m.2 ≤ x.2 := by
  induction q generalizing m rest with
  | nil => simp [pqPopMin] at h
  | cons e tl ih =>
    cases htl : pqPopMin tl with
    | none =>
      have htl' : tl = [] := (pqPopMin_eq_none tl).mp htl
      subst htl'
      simp only [pqPopMin, Option.some.injEq, Prod.mk.injEq] at h
      obtain ⟨hm, hrest⟩ := h
      subst hm; subst hrest
      intro x hx; cases hx
    | some p =>
      obtain ⟨m', rest'⟩ := p
      simp only [pqPopMin, htl] at h
      by_cases hle : e.2 ≤ m'.2
      · rw [if_pos hle] at h
        simp only [Option.some.injEq, Prod.mk.injEq] at h
        obtain ⟨hm, hrest⟩ := h
        subst hm; subst hrest
        intro x hx
        rcases List.mem_cons.mp ((pqPopMin_perm htl).mem_iff.mp hx) with hxm | hxr
        · exact hxm ▸ hle
        · exact le_trans hle (ih htl x hxr)
      · rw [if_neg hle] at h
        simp only [Option.some.injEq, Prod.mk.injEq] at h
        obtain ⟨hm, hrest⟩ := h
        subst hm; subst hrest
        intro x hx
        rcases List.mem_cons.mp hx with hxe | hxr
        · exact hxe ▸ le_of_not_le hle
        · exact ih htl x hxr

/-- Entries of an erased list keep keys different from the erased one, when
the original keys are distinct. -/
theorem mem_assocErase_ne {K A : Type} [DecidableEq K] {l : List (K × A)}
    {k : K} {e : K × A} (hnd : (l.map Prod.fst).Nodup)
    (h : e ∈ assocErase l k) : e.1 ≠ k := by
  induction l with
  | nil => simp [assocErase] at h
  | cons hd rest ih =>
    obtain ⟨k', a'⟩ := hd
    simp only [List.map_cons, List.nodup_cons] at hnd
    by_cases hk : k' = k
    · subst hk
      rw [assocErase, if_pos rfl] at h
      intro hek
      exact hnd.1 (hek ▸ (List.mem_map.mpr ⟨e, h, rfl⟩))
    · rw [assocErase, if_neg hk] at h
      rcases List.mem_cons.mp h with he | he
      · rw [he]; exact hk
      · exact ih hnd.2 he

/-- Erasing produces a sublist. -/
theorem assocErase_sublist {K A : Type} [DecidableEq K] (l : List (K × A))
    (k : K) : (assocErase l k).Sublist l := by
  induction l with
  | nil => simp [assocErase]
  | cons hd rest ih =>
    obtain ⟨k', a'⟩ := hd
    by_cases hk : k' = k
    · rw [assocErase, if_pos hk]
      exact List.sublist_cons_self _ _
    · rw [assocErase, if_neg hk]
      exact List.Sublist.cons₂ _ ih

/-- Well-formedness of a Landlord state: every queued priority is at least
the threshold `l`, every queued key is resident, and queued keys are
distinct.  This is the inductive invariant behind claims C4 and C8. -/
def landlordWf [DecidableEq K] (s : Landlord K V) : Prop :=
  (∀ e ∈ s.pq, s.l ≤ e.2) ∧
  (∀ e ∈ s.pq, (assocFind s.cache e.1).isSome = true) ∧
  (s.pq.map Prod.fst).Nodup

/-- A fresh Landlord cache is well formed. -/
theorem landlordWf_new [DecidableEq K] (cap : Nat) :
    landlordWf (Landlord.new cap : Landlord K V) := by
  refine ⟨?_, ?_, ?_⟩ <;> simp [Landlord.new]

/-- `Landlord::remove` preserves well-formedness and the threshold. -/
theorem landlordRemove_wf [DecidableEq K] {s : Landlord K V} (k : K)
    (h : landlordWf s) : landlordWf (s.remove k) ∧ (s.remove k).l = s.l := by
  obtain ⟨h1, h2, h3⟩ := h
  refine ⟨⟨?_, ?_, ?_⟩, rfl⟩
  · intro e he
    exact h1 e (mem_of_mem_assocErase he)
  · intro e he
    have hne : e.1 ≠ k := mem_assocErase_ne h3 he
    show (assocFind (assocErase s.cache k) e.1).isSome = true
    rw [assocFind_assocErase _ _ _ (fun hh => hne hh.symm)]
    exact h2 e (mem_of_mem_assocErase he)
  · exact List.Nodup.sublist ((assocErase_sublist _ _).map Prod.fst) h3

/-- `Landlord::evict` preserves well-formedness and never lowers the
threshold. -/
theorem landlordEvict_wf [DecidableEq K] {s : Landlord K V}
    (h : landlordWf s) : landlordWf s.evict ∧ s.l ≤ s.evict.l := by
  obtain ⟨h1, h2, h3⟩ := h
  cases hp : pqPopMin s.pq with
  | none =>
    simp only [Landlord.evict, hp]
    exact ⟨⟨h1, h2, h3⟩, le_refl _⟩
  | some p =>
    obtain ⟨m, rest⟩ := p
    have hperm := pqPopMin_perm hp
    have hmin := pqPopMin_le hp
    have hmem : m ∈ s.pq := hperm.mem_iff.mpr (List.mem_cons_self m rest)
    have hnd' : (m.1 :: rest.map Prod.fst).Nodup :=
      ((hperm.map Prod.fst).nodup_iff).mp h3
    simp only [Landlord.evict, hp]
    constructor
    · refine ⟨?_, ?_, ?_⟩
      · intro e he
        exact hmin e he
      · intro e he
        have hek : e.1 ≠ m.1 := by
          intro heq
          exact (List.nodup_cons.mp hnd').1
            (heq ▸ List.mem_map.mpr ⟨e, he, rfl⟩)
        show (assocFind (assocErase s.cache m.1) e.1).isSome = true
        rw [assocFind_assocErase _ _ _ (fun hh => hek hh.symm)]
        exact h2 e (hperm.mem_iff.mpr (List.mem_cons_of_mem m he))
      · exact (List.nodup_cons.mp hnd').2
    · exact h1 m hmem

/-- `Landlord::get` preserves well-formedness and the threshold. -/
theorem landlordGet_wf [DecidableEq K] {s : Landlord K V} (k : K)
    (h : landlordWf s) :
    landlordWf (s.get k).1 ∧ (s.get k).1.l = s.l := by
  obtain ⟨h1, h2, h3⟩ := h
  cases hf : assocFind s.cache k with
  | none =>
    simp only [Landlord.get, hf]
    exact ⟨⟨h1, h2, h3⟩, trivial⟩
  | some nd =>
    simp only [Landlord.get, hf]
    refine ⟨⟨?_, ?_, ?_⟩, trivial⟩
    · intro e he
      rcases mem_pqChange he with he' | he'
      · exact h1 e he'
      · rw [he']
        exact Nat.le_add_right _ _
    · intro e he
      rcases mem_pqChange he with he' | he'
      · exact h2 e he'
      · rw [he']
        simp [hf]
    · rw [pqChange_map_fst]
      exact h3

/-- `Landlord::put` preserves well-formedness and never lowers the
threshold. -/
theorem landlordPut_wf [DecidableEq K] {s : Landlord K V} (k : K) (v : V)
    (w : Nat) (h : landlordWf s) :
    landlordWf (s.put k v w) ∧ s.l ≤ (s.put k v w).l := by
  have hs1 : landlordWf (if (assocFind s.cache k).isSome
        then s.remove k else s) ∧
      (if (assocFind s.cache k).isSome then s.remove k else s).l = s.l := by
    by_cases hc : (assocFind s.cache k).isSome
    · rw [if_pos hc]
      exact ⟨(landlordRemove_wf k h).1, rfl⟩
    · rw [if_neg hc]
      exact ⟨h, rfl⟩
  rw [Landlord.put]
  set s1 := if (assocFind s.cache k).isSome then s.remove k else s with hs1def
  have hs2 : landlordWf (if s1.cache.length ≥ s1.capacity
        then s1.evict else s1) ∧
      s1.l ≤ (if s1.cache.length ≥ s1.capacity then s1.evict else s1).l := by
    by_cases hc : s1.cache.length ≥ s1.capacity
    · rw [if_pos hc]
      exact landlordEvict_wf hs1.1
    · rw [if_neg hc]
      exact ⟨hs1.1, le_refl _⟩
  set s2 := if s1.cache.length ≥ s1.capacity then s1.evict else s1 with hs2def
  obtain ⟨⟨h1, h2, h3⟩, hl2⟩ := hs2
  constructor
  · refine ⟨?_, ?_, ?_⟩
    · intro e he
      show s2.l ≤ e.2
      unfold pqPush at he
      by_cases hc : (assocFind s2.pq k).isSome
      · rw [if_pos hc] at he
        rcases mem_pqChange he with he' | he'
        · exact h1 e he'
        · rw [he']
          exact Nat.le_add_right _ _
      · rw [if_neg hc] at he
        rcases List.mem_append.mp he with he' | he'
        · exact h1 e he'
        · rw [List.mem_singleton.mp he']
          exact Nat.le_add_right _ _
    · intro e he
      show (assocFind (assocInsert s2.cache k ⟨v, w⟩) e.1).isSome = true
      rw [assocFind_assocInsert]
      by_cases hek : k = e.1
      · rw [if_pos hek]; rfl
      · rw [if_neg hek]
        unfold pqPush at he
        by_cases hc : (assocFind s2.pq k).isSome
        · rw [if_pos hc] at he
          rcases mem_pqChange he with he' | he'
          · exact h2 e he'
          · rw [he'] at hek
            exact absurd rfl hek
        · rw [if_neg hc] at he
          rcases List.mem_append.mp he with he' | he'
          · exact h2 e he'
          · rw [List.mem_singleton.mp he'] at hek
            exact absurd rfl hek
    · show ((pqPush s2.pq k (s2.l + w)).map Prod.fst).Nodup
      unfold pqPush
      by_cases hc : (assocFind s2.pq k).isSome
      · rw [if_pos hc, pqChange_map_fst]
        exact h3
      · rw [if_neg hc]
        have hk : k ∉ s2.pq.map Prod.fst := by
          rw [← assocFind_eq_none_iff]
          exact Option.not_isSome_iff_eq_none.mp (by simp [hc])
        rw [List.map_append]
        simp only [List.map_cons, List.map_nil]
        rw [List.nodup_append]
        refine ⟨h3, List.nodup_singleton k, ?_⟩
        intro a ha hb
        rw [List.mem_singleton.mp hb] at ha
        exact hk ha
  · calc s.l = s1.l := hs1.2.symm
      _ ≤ s2.l := hl2
      _ = _ := rfl

/-- One step preserves well-formedness and never lowers the threshold. -/
theorem landlordStep_wf [DecidableEq K] {s : Landlord K V}
    (op : LandlordOp K V) (h : landlordWf s) :
    landlordWf (landlordStep s op) ∧ s.l ≤ (landlordStep s op).l := by
  cases op with
  | put k v w => exact landlordPut_wf k v w h
  | get k =>
    obtain ⟨hw, hl⟩ := landlordGet_wf k h
    exact ⟨hw, le_of_eq hl.symm⟩
  | evict => exact landlordEvict_wf h

/-- Folding any operation list preserves well-formedness and never lowers the
threshold. -/
theorem landlordFold_wf [DecidableEq K] (ops : List (LandlordOp K V)) :
    ∀ s : Landlord K V, landlordWf s →
      landlordWf (ops.foldl landlordStep s) ∧
        s.l ≤ (ops.foldl landlordStep s).l := by
  induction ops with
  | nil => exact fun s hs => ⟨hs, le_refl _⟩
  | cons op tl ih =>
    intro s hs
    obtain ⟨hw, hl⟩ := landlordStep_wf op hs
    obtain ⟨hw', hl'⟩ := ih _ hw
    exact ⟨hw', le_trans hl hl'⟩

/-- A step reported as non-evicting leaves the threshold unchanged. -/
theorem landlordStep_l_of_not_evicts [DecidableEq K] {s : Landlord K V}
    {op : LandlordOp K V} (h : landlordStepEvicts s op = false) :
    (landlordStep s op).l = s.l := by
  cases op with
  | get k =>
    show (s.get k).1.l = s.l
    unfold Landlord.get
    cases hf : assocFind s.cache k <;> simp [hf]
  | evict =>
    have hp : pqPopMin s.pq = none := by
      unfold landlordStepEvicts at h
      cases hp : pqPopMin s.pq with
      | none => rfl
      | some p => rw [hp] at h; simp at h
    show s.evict.l = s.l
    unfold Landlord.evict
    rw [hp]
  | put k v w =>
    unfold landlordStepEvicts at h
    show (s.put k v w).l = s.l
    rw [Landlord.put]
    set s1 := if (assocFind s.cache k).isSome then s.remove k else s with hs1
    have hl1 : s1.l = s.l := by
      rw [hs1]
      by_cases hc : (assocFind s.cache k).isSome
      · rw [if_pos hc]; rfl
      · rw [if_neg hc]
    rw [Bool.and_eq_false_iff] at h
    rcases h with h | h
    · have hc : ¬ (s1.cache.length ≥ s1.capacity) := by
        simpa using h
      show (if s1.cache.length ≥ s1.capacity then s1.evict else s1).l = s.l
      rw [if_neg hc]
      exact hl1
    · have hp : pqPopMin s1.pq = none := by
        cases hp : pqPopMin s1.pq with
        | none => rfl
        | some p => rw [hp] at h; simp at h
      show (if s1.cache.length ≥ s1.capacity then s1.evict else s1).l = s.l
      by_cases hc : s1.cache.length ≥ s1.capacity
      · rw [if_pos hc]
        show s1.evict.l = s.l
        unfold Landlord.evict
        rw [hp]
        exact hl1
      · rw [if_neg hc]
        exact hl1

/-- If no step of a run evicts, the threshold never moves. -/
theorem landlordFold_l_of_no_evict [DecidableEq K]
    (ops : List (LandlordOp K V)) :
    ∀ s : Landlord K V,
      (∀ i, (hi : i < ops.length) →
        landlordStepEvicts ((ops.take i).foldl landlordStep s)
          (ops.get ⟨i, hi⟩) = false) →
      (ops.foldl landlordStep s).l = s.l := by
  induction ops with
  | nil => intro s _; rfl
  | cons op tl ih =>
    intro s hno
    have h0 : landlordStepEvicts s op = false := by
      have := hno 0 (Nat.succ_pos _)
      simpa using this
    have ihtl : (tl.foldl landlordStep (landlordStep s op)).l =
        (landlordStep s op).l := by
      refine ih (landlordStep s op) ?_
      intro i hi
      have := hno (i + 1) (Nat.succ_lt_succ hi)
      simpa [List.take_succ_cons] using this
    rw [List.foldl_cons, ihtl, landlordStep_l_of_not_evicts h0]

/-- C4: confirmed.  For every run of the Landlord engine: (a) every queued
priority is at least the threshold `L`; (b) `L` never decreases when the run
is extended by any further operations; (c) whenever an eviction pops the
minimum entry, the new `L` equals exactly the popped priority (this is the
`evict` both `put` and the public `evict` use); (d) if no step of the run
ever evicted an entry, `L` is still 0. -/
theorem landlord_C4_threshold_invariants [DecidableEq K] (cap : Nat)
    (ops : List (LandlordOp K V)) :
    (∀ e ∈ (landlordRun cap ops).pq, (landlordRun cap ops).l ≤ e.2) ∧
    (∀ extra : List (LandlordOp K V),
      (landlordRun cap ops).l ≤ (landlordRun cap (ops ++ extra)).l) ∧
    (∀ m rest, pqPopMin (landlordRun cap ops).pq = some (m, rest) →
      ((landlordRun cap ops).evict).l = m.2) ∧
    ((∀ i, (hi : i < ops.length) →
        landlordStepEvicts (landlordRun cap (ops.take i))
          (ops.get ⟨i, hi⟩) = false) →
      (landlordRun cap ops).l = 0) := by
  have hwf := landlordFold_wf ops (Landlord.new cap) (landlordWf_new cap)
  refine ⟨hwf.1.1, ?_, ?_, ?_⟩
  · intro extra
    have : landlordRun cap (ops ++ extra) =
        extra.foldl landlordStep (landlordRun cap ops) := by
      unfold landlordRun
      rw [List.foldl_append]
    rw [this]
    exact (landlordFold_wf extra _ hwf.1).2
  · intro m rest hp
    show (landlordRun cap ops).evict.l = m.2
    unfold Landlord.evict
    rw [hp]
  · intro hno
    exact landlordFold_l_of_no_evict ops (Landlord.new cap) hno

/-- C4 witness: a run with two evictions satisfies the queue bound, and a run
with no eviction keeps `L = 0`. -/
theorem landlord_C4_threshold_invariants_witness :
    (∀ e ∈ (landlordRun 2
        [LandlordOp.put 1 10 5, LandlordOp.put 2 20 7, LandlordOp.evict,
         LandlordOp.put 3 30 2] : Landlord Nat Nat).pq,
      (landlordRun 2
        [LandlordOp.put 1 10 5, LandlordOp.put 2 20 7, LandlordOp.evict,
         LandlordOp.put 3 30 2] : Landlord Nat Nat).l ≤ e.2) ∧
    (landlordRun 2 [LandlordOp.put 1 10 5, LandlordOp.get 1] :
        Landlord Nat Nat).l = 0 :=
  ⟨(landlord_C4_threshold_invariants 2
      [LandlordOp.put 1 10 5, LandlordOp.put 2 20 7, LandlordOp.evict,
       LandlordOp.put 3 30 2]).1,
   (landlord_C4_threshold_invariants 2
      [LandlordOp.put 1 10 5, LandlordOp.get 1]).2.2.2 (by decide)⟩

/-- C8: confirmed.  On every reachable Landlord state whose value map is
empty, `evict` is a silent no-op: the whole state (threshold `L`, priority
queue and value map included) is returned unchanged, and no panic is
possible (`Landlord::evict` contains no `unwrap`). -/
theorem landlord_C8_evict_on_empty_noop [DecidableEq K] (cap : Nat)
    (ops : List (LandlordOp K V))
    (hempty : (landlordRun cap ops).cache = []) :
    (landlordRun cap ops).evict = landlordRun cap ops := by
  have hwf := (landlordFold_wf ops (Landlord.new cap) (landlordWf_new cap)).1
  have hpq : (landlordRun cap ops).pq = [] := by
    rcases h : (landlordRun cap ops).pq with _ | ⟨e, tl⟩
    · rfl
    · exfalso
      have := hwf.2.1 e (h ▸ List.mem_cons_self e tl)
      have hempty' : (List.foldl landlordStep (Landlord.new cap) ops).cache =
          ([] : List (K × LandlordNode V)) := hempty
      rw [hempty'] at this
      simp [assocFind] at this
  show (landlordRun cap ops).evict = landlordRun cap ops
  unfold Landlord.evict
  have : pqPopMin (landlordRun cap ops).pq = none := by
    rw [hpq]; rfl
  rw [this]

/-- C8 witness: after `put 1; evict` the cache is empty (with `L = 6`), and
a further `evict` changes nothing. -/
theorem landlord_C8_evict_on_empty_noop_witness :
    (landlordRun 2 [LandlordOp.put 1 10 5, LandlordOp.evict] :
        Landlord Nat Nat).cache = [] ∧
    (landlordRun 2 [LandlordOp.put 1 10 5, LandlordOp.evict] :
        Landlord Nat Nat).evict =
      landlordRun 2 [LandlordOp.put 1 10 5, LandlordOp.evict] :=
  ⟨by decide,
   landlord_C8_evict_on_empty_noop 2
     [LandlordOp.put 1 10 5, LandlordOp.evict] (by decide)⟩

/-! ### Arena access lemmas -/

/-- Reading the slot just written (in bounds). -/
theorem getD_set_self {A : Type} (l : List A) (i : Nat) (a d : A)
    (h : i < l.length) : (l.set i a).getD i d = a := by
  induction l generalizing i with
  | nil => simp at h
  | cons hd tl ih =>
    cases i with
    | zero => rfl
    | succ j =>
      simp only [List.set_cons_succ, List.getD_cons_succ]
      exact ih j (Nat.lt_of_succ_lt_succ h)

/-- Reading another slot after a write. -/
theorem getD_set_ne {A : Type} (l : List A) (i j : Nat) (a d : A)
    (h : i ≠ j) : (l.set i a).getD j d = l.getD j d := by
  induction l generalizing i j with
  | nil => simp
  | cons hd tl ih =>
    cases i with
    | zero =>
      cases j with
      | zero => exact absurd rfl h
      | succ j' => rfl
    | succ i' =>
      cases j with
      | zero => rfl
      | succ j' =>
        simp only [List.set_cons_succ, List.getD_cons_succ]
        exact ih i' j' (fun hh => h (hh ▸ rfl))

/-- Reading the slot just appended. -/
theorem getD_append_self {A : Type} (l : List A) (a d : A) :
    (l ++ [a]).getD l.length d = a := by
  induction l with
  | nil => rfl
  | cons hd tl ih => simp [ih]

/-- Reading an old slot after an append. -/
theorem getD_append_lt {A : Type} (l : List A) (a d : A) (j : Nat)
    (h : j < l.length) : (l ++ [a]).getD j d = l.getD j d := by
  induction l generalizing j with
  | nil => simp at h
  | cons hd tl ih =>
    cases j with
    | zero => rfl
    | succ j' => simpa using ih j' (Nat.lt_of_succ_lt_succ h)

/-- A projection unchanged by the field update is unchanged on every slot. -/
theorem LFUCache.node_setNode_proj {K V A : Type} [Inhabited K] [Inhabited V]
    (s : LFUCache K V) (i : Nat) (f : LFUNode K V → LFUNode K V) (j : Nat)
    (g : LFUNode K V → A) (hf : ∀ n, g (f n) = g n) :
    g ((s.setNode i f).node j) = g (s.node j) := by
  unfold LFUCache.setNode LFUCache.node
  by_cases hij : i = j
  · subst hij
    by_cases hlen : i < s.nodes.length
    · rw [getD_set_self _ _ _ _ hlen]
      exact hf _
    · rw [List.set_eq_of_length_le (Nat.le_of_not_lt hlen)]
  · rw [getD_set_ne _ _ _ _ _ hij]

/-- `setNode` keeps the key index, queue, capacity, bucket map, free list and
arena length unchanged. -/
theorem LFUCache.setNode_parts {K V : Type} [Inhabited K] [Inhabited V]
    (s : LFUCache K V) (i : Nat) (f : LFUNode K V → LFUNode K V) :
    (s.setNode i f).keyToIdx = s.keyToIdx ∧
    (s.setNode i f).nodes.length = s.nodes.length ∧
    (s.setNode i f).capacity = s.capacity ∧
    (s.setNode i f).weighted = s.weighted := by
  refine ⟨rfl, ?_, rfl, rfl⟩
  simp [LFUCache.setNode]

/-- Writing through a projection-preserving field update leaves every
projected read unchanged. -/
theorem getD_set_proj {A B : Type} (l : List A) (i : Nat) (f : A → A)
    (j : Nat) (d : A) (g : A → B) (hf : ∀ a, g (f a) = g a) :
    g ((l.set i (f (l.getD i d))).getD j d) = g (l.getD j d) := by
  by_cases hij : i = j
  · subst hij
    by_cases h : i < l.length
    · rw [getD_set_self _ _ _ _ h, hf]
    · rw [List.set_eq_of_length_le (Nat.le_of_not_lt h)]
  · rw [getD_set_ne _ _ _ _ _ hij]

/-- Writing a node that keeps `key`, `value`, `freq` and `weight` (only the
links may change) leaves those four projections of every slot unchanged. -/
theorem getD_set_links {K V : Type} [Inhabited K] [Inhabited V]
    (l : List (LFUNode K V)) (i : Nat) (P N : Option Nat) (j : Nat) :
    (((l.set i ⟨(l.getD i default).key, (l.getD i default).value,
        (l.getD i default).freq, (l.getD i default).weight, P, N⟩).getD j
          default).freq = (l.getD j default).freq) ∧
    (((l.set i ⟨(l.getD i default).key, (l.getD i default).value,
        (l.getD i default).freq, (l.getD i default).weight, P, N⟩).getD j
          default).value = (l.getD j default).value) ∧
    (((l.set i ⟨(l.getD i default).key, (l.getD i default).value,
        (l.getD i default).freq, (l.getD i default).weight, P, N⟩).getD j
          default).weight = (l.getD j default).weight) ∧
    (((l.set i ⟨(l.getD i default).key, (l.getD i default).value,
        (l.getD i default).freq, (l.getD i default).weight, P, N⟩).getD j
          default).key = (l.getD j default).key) := by
  refine ⟨?_, ?_, ?_, ?_⟩ <;>
    (by_cases hij : i = j
     · subst hij
       by_cases h : i < l.length
       · rw [getD_set_self _ _ _ _ h]
       · rw [List.set_eq_of_length_le (Nat.le_of_not_lt h)]
     · rw [getD_set_ne _ _ _ _ _ hij])

/-- `addToPriorityList` changes only link fields and the bucket map: key
index, queue, capacity, arena length, free list and every node's `key`,
`value`, `freq` and `weight` are untouched. -/
theorem LFUCache.addToPriorityList_parts {K V : Type} [DecidableEq K]
    [Inhabited K] [Inhabited V] (s : LFUCache K V) (idx priority : Nat) :
    (s.addToPriorityList idx priority).keyToIdx = s.keyToIdx ∧
    (s.addToPriorityList idx priority).minPriorityQueue = s.minPriorityQueue ∧
    (s.addToPriorityList idx priority).nodes.length = s.nodes.length ∧
    (s.addToPriorityList idx priority).capacity = s.capacity ∧
    (s.addToPriorityList idx priority).weighted = s.weighted ∧
    (s.addToPriorityList idx priority).freeList = s.freeList ∧
    (∀ j, ((s.addToPriorityList idx priority).node j).freq = (s.node j).freq ∧
      ((s.addToPriorityList idx priority).node j).value = (s.node j).value ∧
      ((s.addToPriorityList idx priority).node j).weight = (s.node j).weight ∧
      ((s.addToPriorityList idx priority).node j).key = (s.node j).key) := by
  cases hh : ((assocFind s.priorityToList priority).getD PriorityList.new).head with
  | none =>
    simp only [LFUCache.addToPriorityList, hh, LFUCache.setNode, LFUCache.node]
    refine ⟨trivial, trivial, by simp, trivial, trivial, trivial, ?_⟩
    intro j
    exact ⟨(getD_set_links _ _ _ _ _).1, (getD_set_links _ _ _ _ _).2.1,
      (getD_set_links _ _ _ _ _).2.2.1, (getD_set_links _ _ _ _ _).2.2.2⟩
  | some oldHead =>
    simp only [LFUCache.addToPriorityList, hh, LFUCache.setNode, LFUCache.node]
    refine ⟨trivial, trivial, by simp, trivial, trivial, trivial, ?_⟩
    intro j
    refine ⟨?_, ?_, ?_, ?_⟩
    · rw [(getD_set_links _ _ _ _ _).1, (getD_set_links _ _ _ _ _).1]
    · rw [(getD_set_links _ _ _ _ _).2.1, (getD_set_links _ _ _ _ _).2.1]
    · rw [(getD_set_links _ _ _ _ _).2.2.1, (getD_set_links _ _ _ _ _).2.2.1]
    · rw [(getD_set_links _ _ _ _ _).2.2.2, (getD_set_links _ _ _ _ _).2.2.2]

/-- `removeFromPriorityList` likewise changes only link fields and the bucket
map. -/
theorem LFUCache.removeFromPriorityList_parts {K V : Type} [DecidableEq K]
    [Inhabited K] [Inhabited V] (s : LFUCache K V) (idx priority : Nat) :
    (s.removeFromPriorityList idx priority).keyToIdx = s.keyToIdx ∧
    (s.removeFromPriorityList idx priority).minPriorityQueue =
      s.minPriorityQueue ∧
    (s.removeFromPriorityList idx priority).nodes.length = s.nodes.length ∧
    (s.removeFromPriorityList idx priority).capacity = s.capacity ∧
    (s.removeFromPriorityList idx priority).weighted = s.weighted ∧
    (s.removeFromPriorityList idx priority).freeList = s.freeList ∧
    (∀ j,
      ((s.removeFromPriorityList idx priority).node j).freq = (s.node j).freq ∧
      ((s.removeFromPriorityList idx priority).node j).value =
        (s.node j).value ∧
      ((s.removeFromPriorityList idx priority).node j).weight =
        (s.node j).weight ∧
      ((s.removeFromPriorityList idx priority).node j).key = (s.node j).key) := by
  cases hf : assocFind s.priorityToList priority with
  | none =>
    simp only [LFUCache.removeFromPriorityList, LFUCache.node, hf]
    exact ⟨by trivial, by trivial, by trivial, by trivial, by trivial,
      by trivial, fun j => ⟨by trivial, by trivial, by trivial, by trivial⟩⟩
  | some list =>
    cases hp : (s.nodes.getD idx default).prev with
    | none =>
      cases hn : (s.nodes.getD idx default).next with
      | none =>
        simp only [LFUCache.removeFromPriorityList, LFUCache.setNode,
          LFUCache.node, hf, hp, hn]
        exact ⟨by trivial, by trivial, by trivial, by trivial, by trivial,
          by trivial, fun j => ⟨by trivial, by trivial, by trivial, by trivial⟩⟩
      | some n =>
        simp only [LFUCache.removeFromPriorityList, LFUCache.setNode,
          LFUCache.node, hf, hp, hn]
        refine ⟨by trivial, by trivial, by simp, by trivial, by trivial,
          by trivial, ?_⟩
        intro j
        exact ⟨(getD_set_links _ _ _ _ _).1, (getD_set_links _ _ _ _ _).2.1,
          (getD_set_links _ _ _ _ _).2.2.1, (getD_set_links _ _ _ _ _).2.2.2⟩
    | some p =>
      cases hn : (s.nodes.getD idx default).next with
      | none =>
        simp only [LFUCache.removeFromPriorityList, LFUCache.setNode,
          LFUCache.node, hf, hp, hn]
        refine ⟨by trivial, by trivial, by simp, by trivial, by trivial,
          by trivial, ?_⟩
        intro j
        exact ⟨(getD_set_links _ _ _ _ _).1, (getD_set_links _ _ _ _ _).2.1,
          (getD_set_links _ _ _ _ _).2.2.1, (getD_set_links _ _ _ _ _).2.2.2⟩
      | some n =>
        simp only [LFUCache.removeFromPriorityList, LFUCache.setNode,
          LFUCache.node, hf, hp, hn]
        refine ⟨by trivial, by trivial, by simp, by trivial, by trivial,
          by trivial, ?_⟩
        intro j
        refine ⟨?_, ?_, ?_, ?_⟩
        · rw [(getD_set_links _ _ _ _ _).1, (getD_set_links _ _ _ _ _).1]
        · rw [(getD_set_links _ _ _ _ _).2.1, (getD_set_links _ _ _ _ _).2.1]
        · rw [(getD_set_links _ _ _ _ _).2.2.1,
            (getD_set_links _ _ _ _ _).2.2.1]
        · rw [(getD_set_links _ _ _ _ _).2.2.2,
            (getD_set_links _ _ _ _ _).2.2.2]

/-- A key absent from a list stays absent after any erase. -/
theorem assocFind_none_of_assocErase {K A : Type} [DecidableEq K]
    {l : List (K × A)} {k q : K} (h : assocFind l k = none) :
    assocFind (assocErase l q) k = none := by
  rw [assocFind_eq_none_iff] at h ⊢
  intro hmem
  rcases List.mem_map.mp hmem with ⟨e, he, hfst⟩
  exact h (List.mem_map.mpr ⟨e, mem_of_mem_assocErase he, hfst⟩)

/-- Changing a present key's priority makes it hold the new priority. -/
theorem assocFind_pqChange_self {K : Type} [DecidableEq K]
    (q : List (K × Nat)) (k : K) (p : Nat)
    (h : (assocFind q k).isSome = true) :
    assocFind (pqChange q k p) k = some p := by
  induction q with
  | nil => simp [assocFind] at h
  | cons e rest ih =>
    obtain ⟨k', p'⟩ := e
    by_cases hk : k' = k
    · subst hk
      have hstep : pqChange ((k', p') :: rest) k' p =
          (k', p) :: pqChange rest k' p := by
        simp [pqChange]
      rw [hstep]
      simp [assocFind]
    · rw [assocFind, if_neg hk] at h
      have hstep : pqChange ((k', p') :: rest) k p =
          (k', p') :: pqChange rest k p := by
        simp [pqChange, hk]
      rw [hstep, assocFind, if_neg hk]
      exact ih h

/-- Lookup skips over a list that misses the key. -/
theorem assocFind_append_of_none {K A : Type} [DecidableEq K]
    (l1 l2 : List (K × A)) (k : K) (h : assocFind l1 k = none) :
    assocFind (l1 ++ l2) k = assocFind l2 k := by
  induction l1 with
  | nil => rfl
  | cons e rest ih =>
    obtain ⟨k', a'⟩ := e
    by_cases hk : k' = k
    · rw [assocFind, if_pos hk] at h
      cases h
    · rw [assocFind, if_neg hk] at h
      rw [List.cons_append, assocFind, if_neg hk]
      exact ih h

/-- After a push, the pushed key holds the pushed priority. -/
theorem assocFind_pqPush_self {K : Type} [DecidableEq K]
    (q : List (K × Nat)) (k : K) (p : Nat) :
    assocFind (pqPush q k p) k = some p := by
  unfold pqPush
  by_cases hc : (assocFind q k).isSome
  · rw [if_pos hc]
    exact assocFind_pqChange_self q k p hc
  · rw [if_neg hc]
    rw [assocFind_append_of_none _ _ _ (Option.not_isSome_iff_eq_none.mp hc)]
    simp [assocFind]

/-- `increment_priority` bumps the slot's `freq` by one, keeps its `value`,
`weight` and `key`, and leaves the key index, capacity, mode and arena length
unchanged. -/
theorem LFUCache.incrementPriority_parts {K V : Type} [DecidableEq K]
    [Inhabited K] [Inhabited V] (s : LFUCache K V) (idx : Nat)
    (h : idx < s.nodes.length) :
    ((s.incrementPriority idx).node idx).freq = (s.node idx).freq + 1 ∧
    ((s.incrementPriority idx).node idx).value = (s.node idx).value ∧
    ((s.incrementPriority idx).node idx).weight = (s.node idx).weight ∧
    (s.incrementPriority idx).keyToIdx = s.keyToIdx ∧
    (s.incrementPriority idx).nodes.length = s.nodes.length ∧
    (s.incrementPriority idx).capacity = s.capacity ∧
    (s.incrementPriority idx).weighted = s.weighted := by
  have h1 := LFUCache.removeFromPriorityList_parts s idx
    ((s.node idx).freq * (s.node idx).weight)
  set s1 := s.removeFromPriorityList idx
    ((s.node idx).freq * (s.node idx).weight) with hs1
  set s2 := s1.setNode idx
    (fun n => { n with freq := (s.node idx).freq + 1 }) with hs2
  have h3 := LFUCache.addToPriorityList_parts s2 idx
    (((s.node idx).freq + 1) * (s.node idx).weight)
  set s3 := s2.addToPriorityList idx
    (((s.node idx).freq + 1) * (s.node idx).weight) with hs3
  have hincr : s.incrementPriority idx =
      { s3 with minPriorityQueue := (pqChange s3.minPriorityQueue
          (s3.node idx).key (((s.node idx).freq + 1) * (s.node idx).weight)) } :=
    rfl
  have hlen1 : s1.nodes.length = s.nodes.length := h1.2.2.1
  have hlt1 : idx < s1.nodes.length := hlen1 ▸ h
  have h2n : s2.node idx = { s1.node idx with freq := (s.node idx).freq + 1 } := by
    rw [hs2]
    unfold LFUCache.setNode LFUCache.node
    rw [getD_set_self _ _ _ _ hlt1]
  refine ⟨?_, ?_, ?_, ?_, ?_, ?_, ?_⟩
  · rw [hincr]
    show (s3.node idx).freq = _
    rw [(h3.2.2.2.2.2.2 idx).1, h2n]
  · rw [hincr]
    show (s3.node idx).value = _
    rw [(h3.2.2.2.2.2.2 idx).2.1, h2n]
    show (s1.node idx).value = _
    rw [(h1.2.2.2.2.2.2 idx).2.1]
  · rw [hincr]
    show (s3.node idx).weight = _
    rw [(h3.2.2.2.2.2.2 idx).2.2.1, h2n]
    show (s1.node idx).weight = _
    rw [(h1.2.2.2.2.2.2 idx).2.2.1]
  · rw [hincr]
    show s3.keyToIdx = _
    rw [h3.1]
    show s1.keyToIdx = _
    rw [h1.1]
  · rw [hincr]
    show s3.nodes.length = _
    rw [h3.2.2.1, (LFUCache.setNode_parts s1 idx _).2.1, hlen1]
  · rw [hincr]
    show s3.capacity = _
    rw [h3.2.2.2.1]
    show s1.capacity = _
    rw [h1.2.2.2.1]
  · rw [hincr]
    show s3.weighted = _
    rw [h3.2.2.2.2.1]
    show s1.weighted = _
    rw [h1.2.2.2.2.1]

/-- A successful lookup is a membership. -/
theorem mem_of_assocFind_eq_some {K A : Type} [DecidableEq K]
    {l : List (K × A)} {k : K} {a : A} (h : assocFind l k = some a) :
    (k, a) ∈ l := by
  induction l with
  | nil => simp [assocFind] at h
  | cons e rest ih =>
    obtain ⟨k', a'⟩ := e
    by_cases hk : k' = k
    · subst hk
      rw [assocFind, if_pos rfl] at h
      rw [Option.some.injEq] at h
      subst h
      exact List.mem_cons_self _ _
    · rw [assocFind, if_neg hk] at h
      exact List.mem_cons_of_mem _ (ih h)

/-- Index bounds the new-key `put` path relies on: free-list entries and the
bucket tails point into the arena (true of every state the cache builds; our
theorems take it as an explicit decidable hypothesis). -/
def LFUCache.allocBoundsB [DecidableEq K] (s : LFUCache K V) : Bool :=
  s.freeList.all (fun i => i < s.nodes.length) &&
  s.priorityToList.all (fun e =>
    match e.2.tail with
    | some t => t < s.nodes.length
    | none => true)

/-- Free-list bound extracted from `allocBoundsB`. -/
theorem LFUCache.allocBounds_free {K V : Type} [DecidableEq K]
    {s : LFUCache K V} (h : s.allocBoundsB = true) :
    ∀ i ∈ s.freeList, i < s.nodes.length := by
  unfold LFUCache.allocBoundsB at h
  rw [Bool.and_eq_true] at h
  intro i hi
  have := List.all_eq_true.mp h.1 i hi
  exact of_decide_eq_true this

/-- Bucket-tail bound extracted from `allocBoundsB`. -/
theorem LFUCache.allocBounds_tail {K V : Type} [DecidableEq K]
    {s : LFUCache K V} (h : s.allocBoundsB = true) :
    ∀ p list, assocFind s.priorityToList p = some list →
      ∀ t, list.tail = some t → t < s.nodes.length := by
  unfold LFUCache.allocBoundsB at h
  rw [Bool.and_eq_true] at h
  intro p list hfind t htail
  have hmem := mem_of_assocFind_eq_some hfind
  have := List.all_eq_true.mp h.2 (p, list) hmem
  rw [show ((p, list).2.tail) = some t from htail] at this
  exact of_decide_eq_true this

/-- The erase-and-free tail of `evict_lfu`: projections of the state after
`remove_from_priority_list` plus the free-list push. -/
theorem LFUCache.removeThenFree_parts {K V : Type} [DecidableEq K]
    [Inhabited K] [Inhabited V] (s' : LFUCache K V) (t prio : Nat) :
    ({ s'.removeFromPriorityList t prio with
        freeList := t :: (s'.removeFromPriorityList t prio).freeList } :
          LFUCache K V).nodes.length = s'.nodes.length ∧
    ({ s'.removeFromPriorityList t prio with
        freeList := t :: (s'.removeFromPriorityList t prio).freeList } :
          LFUCache K V).capacity = s'.capacity ∧
    ({ s'.removeFromPriorityList t prio with
        freeList := t :: (s'.removeFromPriorityList t prio).freeList } :
          LFUCache K V).weighted = s'.weighted ∧
    ({ s'.removeFromPriorityList t prio with
        freeList := t :: (s'.removeFromPriorityList t prio).freeList } :
          LFUCache K V).keyToIdx = s'.keyToIdx ∧
    ({ s'.removeFromPriorityList t prio with
        freeList := t :: (s'.removeFromPriorityList t prio).freeList } :
          LFUCache K V).freeList = t :: s'.freeList := by
  have h := LFUCache.removeFromPriorityList_parts s' t prio
  exact ⟨h.2.2.1, h.2.2.2.1, h.2.2.2.2.1, h.1,
    by show t :: _ = t :: _; rw [h.2.2.2.2.2.1]⟩

/-- What a successful `evict_lfu` preserves: the arena length, the capacity
and mode, the absence of any absent key, and the free-list bound. -/
theorem LFUCache.evictLfu_parts {K V : Type} [DecidableEq K] [Inhabited K]
    [Inhabited V] (s se : LFUCache K V) (hse : s.evictLfu = some se) :
    se.nodes.length = s.nodes.length ∧
    se.capacity = s.capacity ∧
    se.weighted = s.weighted ∧
    (∀ q, assocFind s.keyToIdx q = none → assocFind se.keyToIdx q = none) ∧
    (s.allocBoundsB = true → ∀ i ∈ se.freeList, i < se.nodes.length) := by
  unfold LFUCache.evictLfu at hse
  cases hp : pqPopMin s.minPriorityQueue with
  | none => rw [hp] at hse; cases hse
  | some pr =>
    obtain ⟨m, rq⟩ := pr
    rw [hp] at hse
    cases hbucket : assocFind s.priorityToList m.2 with
    | none =>
      simp only [hbucket] at hse
      rw [Option.some.injEq] at hse
      subst hse
      refine ⟨rfl, rfl, rfl, fun q hq => hq, fun hb i hi => ?_⟩
      exact LFUCache.allocBounds_free hb i hi
    | some list =>
      simp only [hbucket] at hse
      cases htail : list.tail with
      | none =>
        simp only [htail] at hse
        rw [Option.some.injEq] at hse
        subst hse
        refine ⟨rfl, rfl, rfl, fun q hq => hq, fun hb i hi => ?_⟩
        exact LFUCache.allocBounds_free hb i hi
      | some t =>
        simp only [htail] at hse
        rw [Option.some.injEq] at hse
        subst hse
        refine ⟨(LFUCache.removeThenFree_parts _ t m.2).1,
          (LFUCache.removeThenFree_parts _ t m.2).2.1,
          (LFUCache.removeThenFree_parts _ t m.2).2.2.1, ?_, ?_⟩
        · intro q hq
          rw [(LFUCache.removeThenFree_parts _ t m.2).2.2.2.1]
          exact assocFind_none_of_assocErase hq
        · intro hb i hi
          rw [(LFUCache.removeThenFree_parts _ t m.2).2.2.2.2] at hi
          rw [(LFUCache.removeThenFree_parts _ t m.2).1]
          rcases List.mem_cons.mp hi with hit | hifl
          · subst hit
            exact LFUCache.allocBounds_tail hb m.2 list hbucket i htail
          · exact LFUCache.allocBounds_free hb i hifl

/-- `allocate_node` writes exactly the requested node into the returned slot
(`weight.unwrap_or(1)` stored) and leaves the other components alone. -/
theorem LFUCache.allocateNode_parts {K V : Type} [DecidableEq K] [Inhabited K]
    [Inhabited V] (s : LFUCache K V) (key : K) (value : V) (freq : Nat)
    (weight : Option Nat) (hb : ∀ i ∈ s.freeList, i < s.nodes.length) :
    (s.allocateNode key value freq weight).1.node
        (s.allocateNode key value freq weight).2 =
      ⟨key, value, freq, weight.getD 1, none, none⟩ ∧
    (s.allocateNode key value freq weight).1.keyToIdx = s.keyToIdx ∧
    (s.allocateNode key value freq weight).1.minPriorityQueue =
      s.minPriorityQueue ∧
    (s.allocateNode key value freq weight).1.priorityToList =
      s.priorityToList ∧
    (s.allocateNode key value freq weight).1.capacity = s.capacity ∧
    (s.allocateNode key value freq weight).1.weighted = s.weighted := by
  cases hfl : s.freeList with
  | cons f rest =>
    simp only [LFUCache.allocateNode, hfl]
    refine ⟨?_, by trivial, by trivial, by trivial, by trivial, by trivial⟩
    show (s.nodes.set f _).getD f default = _
    exact getD_set_self _ _ _ _ (hb f (by rw [hfl]; exact List.mem_cons_self f rest))
  | nil =>
    simp only [LFUCache.allocateNode, hfl]
    refine ⟨?_, by trivial, by trivial, by trivial, by trivial, by trivial⟩
    show (s.nodes ++ [_]).getD s.nodes.length default = _
    exact getD_append_self _ _ _

/-- What the new-key tail of `put` establishes: the key maps to the fresh
slot, that slot holds `freq = 1`, the supplied value and
`weight.unwrap_or(1)`, and the min-priority queue records priority
`1 × weight.unwrap_or(1)` for the key. -/
theorem LFUCache.putNewCore_parts {K V : Type} [DecidableEq K] [Inhabited K]
    [Inhabited V] (s1 : LFUCache K V) (key : K) (value : V)
    (weight : Option Nat) (hb : ∀ i ∈ s1.freeList, i < s1.nodes.length) :
    ∃ idx,
      assocFind (s1.putNewCore key value weight).keyToIdx key = some idx ∧
      ((s1.putNewCore key value weight).node idx).freq = 1 ∧
      ((s1.putNewCore key value weight).node idx).value = value ∧
      ((s1.putNewCore key value weight).node idx).weight = weight.getD 1 ∧
      assocFind (s1.putNewCore key value weight).minPriorityQueue key =
        some (1 * weight.getD 1) := by
  have halloc := LFUCache.allocateNode_parts s1 key value 1 weight hb
  have hcore : s1.putNewCore key value weight =
      { ({ (s1.allocateNode key value 1 weight).1 with
            keyToIdx := assocInsert
              (s1.allocateNode key value 1 weight).1.keyToIdx key
              (s1.allocateNode key value 1 weight).2 } :
          LFUCache K V).addToPriorityList
          (s1.allocateNode key value 1 weight).2 (1 * weight.getD 1) with
        minPriorityQueue := pqPush
          (({ (s1.allocateNode key value 1 weight).1 with
              keyToIdx := assocInsert
                (s1.allocateNode key value 1 weight).1.keyToIdx key
                (s1.allocateNode key value 1 weight).2 } :
            LFUCache K V).addToPriorityList
            (s1.allocateNode key value 1 weight).2
            (1 * weight.getD 1)).minPriorityQueue
          key (1 * weight.getD 1) } := rfl
  set pr := s1.allocateNode key value 1 weight with hpr
  set s3 : LFUCache K V :=
    { pr.1 with keyToIdx := assocInsert pr.1.keyToIdx key pr.2 } with hs3
  have haddp := LFUCache.addToPriorityList_parts s3 pr.2 (1 * weight.getD 1)
  refine ⟨pr.2, ?_, ?_, ?_, ?_, ?_⟩
  · rw [hcore]
    show assocFind (s3.addToPriorityList pr.2 (1 * weight.getD 1)).keyToIdx
      key = some pr.2
    rw [haddp.1]
    show assocFind (assocInsert pr.1.keyToIdx key pr.2) key = some pr.2
    rw [assocFind_assocInsert, if_pos rfl]
  · rw [hcore]
    show ((s3.addToPriorityList pr.2 (1 * weight.getD 1)).node pr.2).freq = 1
    rw [(haddp.2.2.2.2.2.2 pr.2).1]
    show (pr.1.node pr.2).freq = 1
    rw [halloc.1]
  · rw [hcore]
    show ((s3.addToPriorityList pr.2 (1 * weight.getD 1)).node pr.2).value =
      value
    rw [(haddp.2.2.2.2.2.2 pr.2).2.1]
    show (pr.1.node pr.2).value = value
    rw [halloc.1]
  · rw [hcore]
    show ((s3.addToPriorityList pr.2 (1 * weight.getD 1)).node pr.2).weight =
      weight.getD 1
    rw [(haddp.2.2.2.2.2.2 pr.2).2.2.1]
    show (pr.1.node pr.2).weight = weight.getD 1
    rw [halloc.1]
  · rw [hcore]
    show assocFind (pqPush (s3.addToPriorityList pr.2
        (1 * weight.getD 1)).minPriorityQueue key (1 * weight.getD 1)) key =
      some (1 * weight.getD 1)
    exact assocFind_pqPush_self _ _ _

/-- `put` of a fresh key (under the index bounds) registers it with
`freq = 1`, stored weight `weight.unwrap_or(1)` and queue priority
`1 × weight.unwrap_or(1)`. -/
theorem LFUCache.put_new_parts {K V : Type} [DecidableEq K] [Inhabited K]
    [Inhabited V] (s : LFUCache K V) (k : K) (v : V) (w : Option Nat)
    (s' : LFUCache K V) (hfind : assocFind s.keyToIdx k = none)
    (hb : s.allocBoundsB = true) (hput : s.put k v w = some s') :
    ∃ idx,
      assocFind s'.keyToIdx k = some idx ∧
      (s'.node idx).freq = 1 ∧
      (s'.node idx).value = v ∧
      (s'.node idx).weight = w.getD 1 ∧
      assocFind s'.minPriorityQueue k = some (1 * w.getD 1) := by
  unfold LFUCache.put at hput
  by_cases hguard : s.weighted = true ∧ w.isNone = true
  · rw [if_pos hguard] at hput
    cases hput
  · rw [if_neg hguard] at hput
    simp only [hfind] at hput
    by_cases hcap : s.keyToIdx.length ≥ s.capacity
    · rw [if_pos hcap] at hput
      cases hev : s.evictLfu with
      | none => rw [hev] at hput; cases hput
      | some se =>
        rw [hev] at hput
        rw [Option.some.injEq] at hput
        subst hput
        exact LFUCache.putNewCore_parts se k v w
          ((LFUCache.evictLfu_parts s se hev).2.2.2.2 hb)
    · rw [if_neg hcap] at hput
      rw [Option.some.injEq] at hput
      subst hput
      exact LFUCache.putNewCore_parts s k v w (LFUCache.allocBounds_free hb)

/-- Writing a node that only replaces `value` keeps `freq`, `weight` and
`key` everywhere, and stores the new value in the written slot. -/
theorem getD_set_value {K V : Type} [Inhabited K] [Inhabited V]
    (l : List (LFUNode K V)) (i : Nat) (v : V) (j : Nat) :
    (((l.set i ⟨(l.getD i default).key, v, (l.getD i default).freq,
        (l.getD i default).weight, (l.getD i default).prev,
        (l.getD i default).next⟩).getD j default).freq =
      (l.getD j default).freq) ∧
    (((l.set i ⟨(l.getD i default).key, v, (l.getD i default).freq,
        (l.getD i default).weight, (l.getD i default).prev,
        (l.getD i default).next⟩).getD j default).weight =
      (l.getD j default).weight) ∧
    (((l.set i ⟨(l.getD i default).key, v, (l.getD i default).freq,
        (l.getD i default).weight, (l.getD i default).prev,
        (l.getD i default).next⟩).getD j default).key =
      (l.getD j default).key) ∧
    (i < l.length →
      ((l.set i ⟨(l.getD i default).key, v, (l.getD i default).freq,
          (l.getD i default).weight, (l.getD i default).prev,
          (l.getD i default).next⟩).getD i default).value = v) := by
  refine ⟨?_, ?_, ?_, fun h => by rw [getD_set_self _ _ _ _ h]⟩ <;>
    (by_cases hij : i = j
     · subst hij
       by_cases h : i < l.length
       · rw [getD_set_self _ _ _ _ h]
       · rw [List.set_eq_of_length_le (Nat.le_of_not_lt h)]
     · rw [getD_set_ne _ _ _ _ _ hij])

/-- `put` on an existing key replaces the value, bumps `freq` by one, keeps
the stored weight, and leaves the key index and arena length unchanged. -/
theorem LFUCache.putExistingLfu_parts {K V : Type} [DecidableEq K] [Inhabited K]
    [Inhabited V] (s : LFUCache K V) (k : K) (v : V) (w : Option Nat)
    (idx : Nat) (s' : LFUCache K V)
    (hfind : assocFind s.keyToIdx k = some idx) (hlt : idx < s.nodes.length)
    (hput : s.put k v w = some s') :
    s'.keyToIdx = s.keyToIdx ∧
    (s'.node idx).freq = (s.node idx).freq + 1 ∧
    (s'.node idx).value = v ∧
    (s'.node idx).weight = (s.node idx).weight ∧
    s'.nodes.length = s.nodes.length := by
  unfold LFUCache.put at hput
  by_cases hguard : s.weighted = true ∧ w.isNone = true
  · rw [if_pos hguard] at hput
    cases hput
  · rw [if_neg hguard] at hput
    simp only [hfind] at hput
    rw [Option.some.injEq] at hput
    subst hput
    set s1 := s.setNode idx (fun n => { n with value := v }) with hs1
    have h1len : s1.nodes.length = s.nodes.length :=
      (LFUCache.setNode_parts s idx _).2.1
    have hincr := LFUCache.incrementPriority_parts s1 idx (h1len ▸ hlt)
    have h1freq : (s1.node idx).freq = (s.node idx).freq := by
      rw [hs1]
      unfold LFUCache.setNode LFUCache.node
      exact (getD_set_value s.nodes idx v idx).1
    have h1weight : (s1.node idx).weight = (s.node idx).weight := by
      rw [hs1]
      unfold LFUCache.setNode LFUCache.node
      exact (getD_set_value s.nodes idx v idx).2.1
    have h1value : (s1.node idx).value = v := by
      rw [hs1]
      unfold LFUCache.setNode LFUCache.node
      exact (getD_set_value s.nodes idx v idx).2.2.2 hlt
    refine ⟨?_, ?_, ?_, ?_, ?_⟩
    · rw [hincr.2.2.2.1]
      exact (LFUCache.setNode_parts s idx _).1
    · rw [hincr.1, h1freq]
    · rw [hincr.2.1, h1value]
    · rw [hincr.2.2.1, h1weight]
    · rw [hincr.2.2.2.2.1, h1len]

/-- `get` on a present key is `increment_priority` plus the stored value. -/
theorem LFUCache.getFoundLfu {K V : Type} [DecidableEq K] [Inhabited K]
    [Inhabited V] (s : LFUCache K V) (k : K) (idx : Nat)
    (hfind : assocFind s.keyToIdx k = some idx) :
    (s.get k).1 = s.incrementPriority idx ∧
    (s.get k).2 = some ((s.incrementPriority idx).node idx).value := by
  unfold LFUCache.get
  simp only [hfind]
  exact ⟨by trivial, by trivial⟩

/-- C6: confirmed.  LFU frequency accounting: a fresh `put` of a key stores
`freq = 1` and `get_freq` reports it; `get_freq` of an absent key is `None`;
a `get` hit bumps the reported count by exactly one, as does a `put` on the
existing key.  (`idx < nodes.length` and `allocBoundsB` state that the key
index, free list and bucket tails point into the arena, which holds in every
state the cache builds; Rust would panic otherwise.) -/
theorem lfu_C6_frequency_accounting {K V : Type} [DecidableEq K] [Inhabited K]
    [Inhabited V] (s : LFUCache K V) (k : K) (v : V) (w : Option Nat) :
    (assocFind s.keyToIdx k = none → s.getFreq k = none) ∧
    (∀ idx, assocFind s.keyToIdx k = some idx → idx < s.nodes.length →
      s.getFreq k = some (s.node idx).freq ∧
      (s.get k).1.getFreq k = some ((s.node idx).freq + 1) ∧
      (∀ s', s.put k v w = some s' →
        s'.getFreq k = some ((s.node idx).freq + 1))) ∧
    (∀ s', assocFind s.keyToIdx k = none → s.allocBoundsB = true →
      s.put k v w = some s' → s'.getFreq k = some 1) := by
  refine ⟨?_, ?_, ?_⟩
  · intro h
    unfold LFUCache.getFreq
    rw [h]
    rfl
  · intro idx hfind hlt
    refine ⟨?_, ?_, ?_⟩
    · unfold LFUCache.getFreq
      rw [hfind]
      rfl
    · rw [(LFUCache.getFoundLfu s k idx hfind).1]
      have hincr := LFUCache.incrementPriority_parts s idx hlt
      unfold LFUCache.getFreq
      rw [hincr.2.2.2.1, hfind, Option.map_some', hincr.1]
    · intro s' hput
      have hp := LFUCache.putExistingLfu_parts s k v w idx s' hfind hlt hput
      unfold LFUCache.getFreq
      rw [hp.1, hfind, Option.map_some', hp.2.1]
  · intro s' hfind hb hput
    obtain ⟨idx, hfi, hfr, _, _, _⟩ :=
      LFUCache.put_new_parts s k v w s' hfind hb hput
    unfold LFUCache.getFreq
    rw [hfi, Option.map_some', hfr]

/-- C6 witness: on the concrete unweighted cache holding key 5 (after one
`put`), the absent key 9 reports `None`, a `get` of key 5 reports 2, and a
fresh `put` of key 6 reports 1. -/
theorem lfu_C6_frequency_accounting_witness :
    (((lfuRun 2 false [LFUOp.put 5 7 none]).getD
        (LFUCache.new 2 false)).getFreq 9 = none) ∧
    ((((lfuRun 2 false [LFUOp.put 5 7 none]).getD
        (LFUCache.new 2 false)).get 5).1.getFreq 5 =
      some ((((lfuRun 2 false [LFUOp.put 5 7 none]).getD
        (LFUCache.new 2 false)).node 0).freq + 1)) ∧
    (∀ s', ((lfuRun 2 false [LFUOp.put 5 7 none]).getD
        (LFUCache.new 2 false)).put 6 8 none = some s' →
      s'.getFreq 6 = some 1) :=
  ⟨(lfu_C6_frequency_accounting
      ((lfuRun 2 false [LFUOp.put 5 7 none]).getD (LFUCache.new 2 false))
      9 0 none).1 (by decide),
   ((lfu_C6_frequency_accounting
      ((lfuRun 2 false [LFUOp.put 5 7 none]).getD (LFUCache.new 2 false))
      5 0 none).2.1 0 (by decide) (by decide)).2.1,
   fun s' hput =>
     (lfu_C6_frequency_accounting
        ((lfuRun 2 false [LFUOp.put 5 7 none]).getD (LFUCache.new 2 false))
        6 8 none).2.2 s' (by decide) (by decide) hput⟩

/-- Link-only LRU node writes keep `key` and `value` at every slot. -/
theorem getD_set_links_lru {K V : Type} [Inhabited K] [Inhabited V]
    (l : List (LRUNode K V)) (i : Nat) (P N : Option Nat) (j : Nat) :
    (((l.set i ⟨(l.getD i default).key, (l.getD i default).value, P, N⟩).getD j
        default).key = (l.getD j default).key) ∧
    (((l.set i ⟨(l.getD i default).key, (l.getD i default).value, P, N⟩).getD j
        default).value = (l.getD j default).value) := by
  refine ⟨?_, ?_⟩ <;>
    (by_cases hij : i = j
     · subst hij
       by_cases h : i < l.length
       · rw [getD_set_self _ _ _ _ h]
       · rw [List.set_eq_of_length_le (Nat.le_of_not_lt h)]
     · rw [getD_set_ne _ _ _ _ _ hij])

/-- Replacing only the `value` of an LRU node keeps keys everywhere and
stores the new value in the written slot. -/
theorem getD_set_value_lru {K V : Type} [Inhabited K] [Inhabited V]
    (l : List (LRUNode K V)) (i : Nat) (v : V) (j : Nat) :
    (((l.set i ⟨(l.getD i default).key, v, (l.getD i default).prev,
        (l.getD i default).next⟩).getD j default).key =
      (l.getD j default).key) ∧
    (i < l.length →
      ((l.set i ⟨(l.getD i default).key, v, (l.getD i default).prev,
          (l.getD i default).next⟩).getD i default).value = v) := by
  refine ⟨?_, fun h => by rw [getD_set_self _ _ _ _ h]⟩
  by_cases hij : i = j
  · subst hij
    by_cases h : i < l.length
    · rw [getD_set_self _ _ _ _ h]
    · rw [List.set_eq_of_length_le (Nat.le_of_not_lt h)]
  · rw [getD_set_ne _ _ _ _ _ hij]

/-- `detach` changes only links, `head` and `tail`. -/
theorem LRUCache.detach_parts {K V : Type} [Inhabited K] [Inhabited V]
    (s : LRUCache K V) (idx : Nat) :
    (s.detach idx).map = s.map ∧
    (s.detach idx).capacity = s.capacity ∧
    (s.detach idx).freeList = s.freeList ∧
    (s.detach idx).nodes.length = s.nodes.length ∧
    (∀ j, ((s.detach idx).node j).key = (s.node j).key ∧
      ((s.detach idx).node j).value = (s.node j).value) := by
  cases hp : (s.nodes.getD idx default).prev with
  | none =>
    cases hn : (s.nodes.getD idx default).next with
    | none =>
      simp only [LRUCache.detach, LRUCache.setNode, LRUCache.node, hp, hn]
      exact ⟨by trivial, by trivial, by trivial, by trivial,
        fun j => ⟨by trivial, by trivial⟩⟩
    | some n =>
      simp only [LRUCache.detach, LRUCache.setNode, LRUCache.node, hp, hn]
      refine ⟨by trivial, by trivial, by trivial, by simp, ?_⟩
      intro j
      exact ⟨(getD_set_links_lru _ _ _ _ _).1, (getD_set_links_lru _ _ _ _ _).2⟩
  | some p =>
    cases hn : (s.nodes.getD idx default).next with
    | none =>
      simp only [LRUCache.detach, LRUCache.setNode, LRUCache.node, hp, hn]
      refine ⟨by trivial, by trivial, by trivial, by simp, ?_⟩
      intro j
      exact ⟨(getD_set_links_lru _ _ _ _ _).1, (getD_set_links_lru _ _ _ _ _).2⟩
    | some n =>
      simp only [LRUCache.detach, LRUCache.setNode, LRUCache.node, hp, hn]
      refine ⟨by trivial, by trivial, by trivial, by simp, ?_⟩
      intro j
      refine ⟨?_, ?_⟩
      · rw [(getD_set_links_lru _ _ _ _ _).1, (getD_set_links_lru _ _ _ _ _).1]
      · rw [(getD_set_links_lru _ _ _ _ _).2, (getD_set_links_lru _ _ _ _ _).2]

/-- `add_to_front` changes only links, `head` and `tail`. -/
theorem LRUCache.addToFront_parts {K V : Type} [Inhabited K] [Inhabited V]
    (s : LRUCache K V) (idx : Nat) :
    (s.addToFront idx).map = s.map ∧
    (s.addToFront idx).capacity = s.capacity ∧
    (s.addToFront idx).freeList = s.freeList ∧
    (s.addToFront idx).nodes.length = s.nodes.length ∧
    (∀ j, ((s.addToFront idx).node j).key = (s.node j).key ∧
      ((s.addToFront idx).node j).value = (s.node j).value) := by
  cases hh : s.head with
  | none =>
    simp only [LRUCache.addToFront, LRUCache.setNode, LRUCache.node, hh,
      apply_ite, ite_self]
    refine ⟨by trivial, by trivial, by trivial, by simp, ?_⟩
    intro j
    exact ⟨(getD_set_links_lru _ _ _ _ _).1, (getD_set_links_lru _ _ _ _ _).2⟩
  | some oldHead =>
    simp only [LRUCache.addToFront, LRUCache.setNode, LRUCache.node, hh,
      apply_ite, ite_self]
    refine ⟨by trivial, by trivial, by trivial, by simp, ?_⟩
    intro j
    refine ⟨?_, ?_⟩
    · rw [(getD_set_links_lru _ _ _ _ _).1, (getD_set_links_lru _ _ _ _ _).1]
    · rw [(getD_set_links_lru _ _ _ _ _).2, (getD_set_links_lru _ _ _ _ _).2]

/-- `move_to_front` changes only links, `head` and `tail`. -/
theorem LRUCache.moveToFront_parts {K V : Type} [Inhabited K] [Inhabited V]
    (s : LRUCache K V) (idx : Nat) :
    (s.moveToFront idx).map = s.map ∧
    (s.moveToFront idx).nodes.length = s.nodes.length ∧
    (∀ j, ((s.moveToFront idx).node j).key = (s.node j).key ∧
      ((s.moveToFront idx).node j).value = (s.node j).value) := by
  unfold LRUCache.moveToFront
  by_cases hh : s.head = some idx
  · rw [if_pos hh]
    exact ⟨rfl, rfl, fun j => ⟨rfl, rfl⟩⟩
  · rw [if_neg hh]
    have hd := LRUCache.detach_parts s idx
    have ha := LRUCache.addToFront_parts (s.detach idx) idx
    refine ⟨?_, ?_, ?_⟩
    · rw [ha.1, hd.1]
    · rw [ha.2.2.2.1, hd.2.2.2.1]
    · intro j
      refine ⟨?_, ?_⟩
      · rw [(ha.2.2.2.2 j).1, (hd.2.2.2.2 j).1]
      · rw [(ha.2.2.2.2 j).2, (hd.2.2.2.2 j).2]

/-- LRU `put` on an existing key: the map is unchanged and the slot holds the
new value. -/
theorem LRUCache.putExistingLru_parts {K V : Type} [DecidableEq K] [Inhabited K]
    [Inhabited V] (s : LRUCache K V) (k : K) (v : V) (w : Nat) (idx : Nat)
    (hfind : assocFind s.map k = some idx) (hlt : idx < s.nodes.length) :
    (s.put k v w).map = s.map ∧ ((s.put k v w).node idx).value = v := by
  unfold LRUCache.put
  simp only [hfind]
  set s1 := s.setNode idx (fun n => { n with value := v }) with hs1
  have hmv := LRUCache.moveToFront_parts s1 idx
  refine ⟨?_, ?_⟩
  · rw [hmv.1]
    rfl
  · rw [(hmv.2.2 idx).2]
    rw [hs1]
    unfold LRUCache.setNode LRUCache.node
    exact (getD_set_value_lru s.nodes idx v idx).2 hlt

/-- LRU `get` on a present key is `move_to_front` plus the stored value. -/
theorem LRUCache.getFoundLru {K V : Type} [DecidableEq K] [Inhabited K]
    [Inhabited V] (s : LRUCache K V) (k : K) (idx : Nat)
    (hfind : assocFind s.map k = some idx) :
    (s.get k).1 = s.moveToFront idx ∧
    (s.get k).2 = some ((s.moveToFront idx).node idx).value := by
  unfold LRUCache.get
  simp only [hfind]
  exact ⟨by trivial, by trivial⟩

/-- Erasing a present key shrinks the list by exactly one entry. -/
theorem assocErase_length {K A : Type} [DecidableEq K] {l : List (K × A)}
    {k : K} (h : (assocFind l k).isSome = true) :
    (assocErase l k).length + 1 = l.length := by
  induction l with
  | nil => simp [assocFind] at h
  | cons e rest ih =>
    obtain ⟨k', a'⟩ := e
    by_cases hk : k' = k
    · rw [assocErase, if_pos hk]
      rfl
    · rw [assocFind, if_neg hk] at h
      rw [assocErase, if_neg hk, List.length_cons, List.length_cons, ih h]

/-- With distinct keys, erasing a key removes its only occurrence. -/
theorem assocFind_assocErase_self {K A : Type} [DecidableEq K]
    {l : List (K × A)} {k : K} (hnd : (l.map Prod.fst).Nodup) :
    assocFind (assocErase l k) k = none := by
  rw [assocFind_eq_none_iff]
  intro hmem
  rcases List.mem_map.mp hmem with ⟨e, he, hfst⟩
  exact mem_assocErase_ne hnd he hfst

/-- Inserting an absent key grows the list by exactly one entry. -/
theorem assocInsert_length_of_none {K A : Type} [DecidableEq K]
    {l : List (K × A)} {k : K} (a : A) (h : assocFind l k = none) :
    (assocInsert l k a).length = l.length + 1 := by
  induction l with
  | nil => rfl
  | cons e rest ih =>
    obtain ⟨k', a'⟩ := e
    by_cases hk : k' = k
    · rw [assocFind, if_pos hk] at h
      cases h
    · rw [assocFind, if_neg hk] at h
      rw [assocInsert, if_neg hk, List.length_cons, List.length_cons, ih h]

/-- Landlord `put` on an existing key: `len` is unchanged and the new value
is stored. -/
theorem Landlord.putExistingLandlord_parts {K V : Type} [DecidableEq K]
    (s : Landlord K V) (k : K) (v : V) (w : Nat) (nd : LandlordNode V)
    (hfind : assocFind s.cache k = some nd)
    (hnd : (s.cache.map Prod.fst).Nodup)
    (hcap : s.cache.length ≤ s.capacity) :
    (s.put k v w).cache.length = s.cache.length ∧
    ((s.put k v w).get k).2 = some v := by
  have hsome : (assocFind s.cache k).isSome = true := by rw [hfind]; rfl
  have hlen1 : (s.remove k).cache.length + 1 = s.cache.length := by
    show (assocErase s.cache k).length + 1 = s.cache.length
    exact assocErase_length hsome
  have hnocap : ¬ ((s.remove k).cache.length ≥ (s.remove k).capacity) := by
    show ¬ ((assocErase s.cache k).length ≥ s.capacity)
    intro hge
    have h1 : (assocErase s.cache k).length < s.cache.length := by
      rw [← hlen1]
      exact Nat.lt_succ_self _
    exact absurd (lt_of_lt_of_le h1 hcap) (not_lt_of_le hge)
  unfold Landlord.put
  simp only [hsome, if_true, hnocap, if_false]
  have hfe : assocFind (s.remove k).cache k = none := by
    show assocFind (assocErase s.cache k) k = none
    exact assocFind_assocErase_self hnd
  constructor
  · show (assocInsert (s.remove k).cache k ⟨v, w⟩).length = s.cache.length
    rw [assocInsert_length_of_none _ hfe]
    show (assocErase s.cache k).length + 1 = s.cache.length
    exact hlen1
  · show (Landlord.get _ k).2 = some v
    unfold Landlord.get
    have hfk : assocFind
        (assocInsert (s.remove k).cache k (⟨v, w⟩ : LandlordNode V)) k =
        some ⟨v, w⟩ := by
      rw [assocFind_assocInsert, if_pos rfl]
    simp only [hfk]

/-- C7: confirmed for all three engines.  A `put` whose key is already
resident never changes `len` and makes a following `get` of that key return
the value just supplied.  The side hypotheses say: the found slot is inside
the arena (LRU, LFU — true of every state the cache builds, Rust would panic
otherwise), and for Landlord that resident keys are distinct and `len` is
within capacity (both hold on every reachable state). -/
theorem caches_C7_update_in_place {K V : Type} [DecidableEq K] [Inhabited K]
    [Inhabited V] :
    (∀ (s : LRUCache K V) (k : K) (v : V) (w idx : Nat),
      assocFind s.map k = some idx → idx < s.nodes.length →
      (s.put k v w).len = s.len ∧ ((s.put k v w).get k).2 = some v) ∧
    (∀ (s : LFUCache K V) (k : K) (v : V) (w : Option Nat) (idx : Nat)
        (s' : LFUCache K V),
      assocFind s.keyToIdx k = some idx → idx < s.nodes.length →
      s.put k v w = some s' →
      s'.len = s.len ∧ (s'.get k).2 = some v) ∧
    (∀ (s : Landlord K V) (k : K) (v : V) (w : Nat) (nd : LandlordNode V),
      assocFind s.cache k = some nd → (s.cache.map Prod.fst).Nodup →
      s.cache.length ≤ s.capacity →
      (s.put k v w).len = s.len ∧ ((s.put k v w).get k).2 = some v) := by
  refine ⟨?_, ?_, ?_⟩
  · intro s k v w idx hfind hlt
    have hp := LRUCache.putExistingLru_parts s k v w idx hfind hlt
    refine ⟨?_, ?_⟩
    · show (s.put k v w).map.length = s.map.length
      rw [hp.1]
    · have hfind' : assocFind (s.put k v w).map k = some idx := by
        rw [hp.1]; exact hfind
      rw [(LRUCache.getFoundLru _ k idx hfind').2]
      rw [(LRUCache.moveToFront_parts _ idx).2.2 idx |>.2]
      rw [hp.2]
  · intro s k v w idx s' hfind hlt hput
    have hp := LFUCache.putExistingLfu_parts s k v w idx s' hfind hlt hput
    refine ⟨?_, ?_⟩
    · show s'.keyToIdx.length = s.keyToIdx.length
      rw [hp.1]
    · have hfind' : assocFind s'.keyToIdx k = some idx := by
        rw [hp.1]; exact hfind
      rw [(LFUCache.getFoundLfu s' k idx hfind').2]
      have hincr := LFUCache.incrementPriority_parts s' idx
        (by rw [hp.2.2.2.2]; exact hlt)
      rw [hincr.2.1, hp.2.2.1]
  · intro s k v w nd hfind hnd hcap
    exact Landlord.putExistingLandlord_parts s k v w nd hfind hnd hcap

/-- C7 witness: concrete single-entry caches for the three engines. -/
theorem caches_C7_update_in_place_witness :
    ((lruRun 2 [LRUOp.put 1 10 0] : LRUCache Nat Nat).put 1 99 0).len =
      (lruRun 2 [LRUOp.put 1 10 0] : LRUCache Nat Nat).len ∧
    (∀ s', ((lfuRun 2 false [LFUOp.put 1 10 none]).getD
        (LFUCache.new 2 false)).put 1 99 none = some s' →
      s'.len = ((lfuRun 2 false [LFUOp.put 1 10 none]).getD
        (LFUCache.new 2 false)).len) ∧
    Landlord.len ((landlordRun 2 [LandlordOp.put 1 10 5] :
        Landlord Nat Nat).put 1 99 7) =
      (landlordRun 2 [LandlordOp.put 1 10 5] : Landlord Nat Nat).len :=
  ⟨(caches_C7_update_in_place.1 (lruRun 2 [LRUOp.put 1 10 0]) 1 99 0 0
      (by decide) (by decide)).1,
   fun s' hput =>
     (caches_C7_update_in_place.2.1
        ((lfuRun 2 false [LFUOp.put 1 10 none]).getD (LFUCache.new 2 false))
        1 99 none 0 s' (by decide) (by decide) hput).1,
   (caches_C7_update_in_place.2.2 (landlordRun 2 [LandlordOp.put 1 10 5])
      1 99 7 ⟨10, 5⟩ (by decide) (by decide) (by decide)).1⟩

/-- C10: confirmed.  In an unweighted LFU cache (`weighted == false`) a
weight explicitly supplied as `Some w` to `put` of a fresh key is stored and
used: the slot records weight `w` and the bucket/queue priority becomes
`freq × w = 1 × w`, not `1 × 1`.  The `weighted` flag only makes a missing
weight fatal in weighted mode (`put … None` panics there) and never
neutralizes a supplied weight; in unweighted mode a missing weight defaults
to 1 and `put` below capacity cannot panic. -/
theorem lfu_C10_unweighted_uses_supplied_weight {K V : Type} [DecidableEq K]
    [Inhabited K] [Inhabited V] (s : LFUCache K V) (k : K) (v : V)
    (w0 : Nat) :
    (s.weighted = true → s.put k v none = none) ∧
    (assocFind s.keyToIdx k = none → s.allocBoundsB = true →
      ∀ s', s.put k v (some w0) = some s' →
        ∃ idx, assocFind s'.keyToIdx k = some idx ∧
          (s'.node idx).weight = w0 ∧
          (s'.node idx).freq = 1 ∧
          assocFind s'.minPriorityQueue k = some (1 * w0)) ∧
    (s.weighted = false → ¬ (s.keyToIdx.length ≥ s.capacity) →
      (s.put k v none).isSome = true) := by
  refine ⟨?_, ?_, ?_⟩
  · intro hw
    unfold LFUCache.put
    rw [if_pos ⟨hw, rfl⟩]
  · intro hfind hb s' hput
    obtain ⟨idx, hfi, hfr, _, hwt, hpq⟩ :=
      LFUCache.put_new_parts s k v (some w0) s' hfind hb hput
    exact ⟨idx, hfi, hwt, hfr, hpq⟩
  · intro hw hcap
    unfold LFUCache.put
    have hguard : ¬ (s.weighted = true ∧ (none : Option Nat).isNone = true) := by
      intro hg
      rw [hw] at hg
      cases hg.1
    rw [if_neg hguard]
    cases hfind : assocFind s.keyToIdx k with
    | some idx => rfl
    | none =>
      simp only [hfind]
      rw [if_neg hcap]
      rfl

/-- C10 witness: on the empty unweighted cache, `put 1 v (some 4)` stores
weight 4 at slot 0 and queues key 1 with priority `1 × 4`; and
`put 2 v none` below capacity succeeds. -/
theorem lfu_C10_unweighted_uses_supplied_weight_witness :
    (∀ s', (LFUCache.new 2 false : LFUCache Nat Nat).put 1 7 (some 4) =
        some s' →
      ∃ idx, assocFind s'.keyToIdx 1 = some idx ∧
        (s'.node idx).weight = 4 ∧
        (s'.node idx).freq = 1 ∧
        assocFind s'.minPriorityQueue 1 = some (1 * 4)) ∧
    ((LFUCache.new 2 false : LFUCache Nat Nat).put 2 8 none).isSome = true :=
  ⟨fun s' hput =>
     (lfu_C10_unweighted_uses_supplied_weight (LFUCache.new 2 false) 1 7 4).2.1
       (by decide) (by decide) s' hput,
   (lfu_C10_unweighted_uses_supplied_weight
      (LFUCache.new 2 false : LFUCache Nat Nat) 2 8 4).2.2 (by decide)
      (by decide)⟩
